import Mathlib

/-!
Verification of the configuration assembly and validation core of the
cloudit-usb-automations repository.

The embedding models the TypeScript sources:
* `unattended/merge.ts` — `AutoUnattendBuilder` (template reading, pass-file
  reading, placeholder substitution, build driver);
* the `XmlValidator` class (`validateAutounattendXml`,
  `validateBasicStructure`, `validateWindowsComponents`,
  `validatePasswordSecurity`, `suggestOptimizations`, `isBase64`).

Strings are modelled as `List Char`.  JavaScript `String.prototype.replace`
with a string pattern replaces the first occurrence only; `String.includes`
is substring containment; the regex scans of the validator are modelled by
explicit left-to-right scanners that continue after each match, exactly as a
global JS regex does.  Node `Buffer.from(s, 'base64')` ignores characters
outside the base64 alphabet and truncates trailing bits, and
`Buffer.toString()` is UTF-8 decoding with U+FFFD replacement; both are
modelled below.  File-system state is explicit: the template file, the seven
pass files and the output file are `Option` values.
-/

set_option maxRecDepth 4000

abbrev Str := List Char

/-- The character x7b, written numerically because of lexical constraints. -/
def lb : Char := Char.ofNat 123

/-- The character x7d. -/
def rb : Char := Char.ofNat 125

/-- `isPrefB p s` is true when the list `p` is an initial segment of `s`. -/
def isPrefB : Str → Str → Bool
  | [], _ => true
  | _ :: _, [] => false
  | p :: ps, c :: cs => p == c && isPrefB ps cs

/-- The backquote character, written numerically because of lexical
constraints. -/
def backquoteC : Char := Char.ofNat 96

/-- The single-quote character, written numerically because of lexical
constraints. -/
def quoteC : Char := Char.ofNat 39

/-- ECMAScript GetSubstitution for a string search pattern (so the capture
list is empty and named captures are absent): scanning the replacement text,
`$$` yields a dollar, `$&` the matched string, dollar-backquote the part of
the subject before the match, dollar-quote the part after it.  Every other
dollar unit passes through literally: `$n`/`$nn` with zero capture groups
and `$<` with no named captures are kept as-is by the specification, which
coincides with copying the dollar and rescanning from the following
character, as done here. -/
def getSubst (matched before after : Str) : Str → Str
  | [] => []
  | [c] => [c]
  | c :: d :: rest =>
    if c == '$' then
      if d == '$' then '$' :: getSubst matched before after rest
      else if d == '&' then matched ++ getSubst matched before after rest
      else if d == backquoteC then before ++ getSubst matched before after rest
      else if d == quoteC then after ++ getSubst matched before after rest
      else c :: getSubst matched before after (d :: rest)
    else c :: getSubst matched before after (d :: rest)

/-- Split a string at the first (leftmost) occurrence of `pat`
(ECMAScript StringIndexOf): the part before the match and the part after
it, or `none` when `pat` does not occur. -/
def splitFirst (pat : Str) : Str → Option (Str × Str)
  | [] => if pat.isEmpty then some ([], []) else none
  | c :: rest =>
    if isPrefB pat (c :: rest) then some ([], List.drop pat.length (c :: rest))
    else
      match splitFirst pat rest with
      | none => none
      | some (b, a) => some (c :: b, a)

/-- JS `s.replace(pat, rep)` with a string pattern: replace the first
occurrence of `pat` in `s` by `rep` passed through `GetSubstitution`; if
`pat` does not occur, return `s` unchanged. -/
def replFirst (pat rep s : Str) : Str :=
  match splitFirst pat s with
  | none => s
  | some (b, a) => b ++ getSubst pat b a rep ++ a

/-- JS `s.includes(pat)`. -/
def containsSub : Str → Str → Bool
  | [], pat => pat.isEmpty
  | c :: rest, pat => isPrefB pat (c :: rest) || containsSub rest pat

/-- Number of (possibly overlapping) occurrences of `pat` in `s`: the number
of positions at which `pat` matches. -/
def countOcc (pat : Str) : Str → Nat
  | [] => if pat.isEmpty then 1 else 0
  | c :: rest => (if isPrefB pat (c :: rest) then 1 else 0) + countOcc pat rest

/-- The string has no brace characters. -/
def braceFreeB (s : Str) : Bool := s.all fun c => !(c == lb) && !(c == rb)

/-- The string has no dollar characters; GetSubstitution splices such a
replacement verbatim. -/
def dollarFreeB (s : Str) : Bool := s.all fun c => !(c == '$')

/-- JS `Array.join(sep)` on a list of strings. -/
def joinSep (sep : Str) : List Str → Str
  | [] => []
  | [x] => x
  | x :: y :: xs => x ++ sep ++ joinSep sep (y :: xs)

/-- JS `toLowerCase` (ASCII range, which covers every check below). -/
def lowerStr (s : Str) : Str := s.map Char.toLower

section Scanners

/-- Fuelled generic scanner: at each position try the matcher `m`; on a match
emit it and continue after the match (like a global JS regex), otherwise
advance one character. -/
def scanG (m : Str → Option (Str × Str)) : Nat → Str → List Str
  | 0, _ => []
  | _ + 1, [] => []
  | f + 1, c :: rest =>
    match m (c :: rest) with
    | some (mt, af) => mt :: scanG m f af
    | none => scanG m f rest

/-- A matcher consumes at least one character. -/
def Shrinks (m : Str → Option (Str × Str)) : Prop :=
  ∀ s mt af, m s = some (mt, af) → af.length < s.length

theorem scanG_fuel_any {m : Str → Option (Str × Str)} (hm : Shrinks m) :
    ∀ f s g, s.length ≤ f → s.length ≤ g → scanG m f s = scanG m g s := by
  intro f
  induction f with
  | zero =>
    intro s g hs _
    have : s = [] := List.length_eq_zero.mp (Nat.le_zero.mp hs)
    subst this
    cases g <;> rfl
  | succ f ih =>
    intro s g hs hg
    cases s with
    | nil => cases g <;> rfl
    | cons c rest =>
      obtain ⟨g, rfl⟩ : ∃ g0, g = g0 + 1 := by
        cases g with
        | zero => simp at hg
        | succ g0 => exact ⟨g0, rfl⟩
      simp only [scanG]
      cases hmr : m (c :: rest) with
      | none =>
        have h1 : rest.length ≤ f := by
          simp only [List.length_cons] at hs; omega
        have h2 : rest.length ≤ g := by
          simp only [List.length_cons] at hg; omega
        rw [ih rest g h1 h2]
      | some pr =>
        obtain ⟨mt, af⟩ := pr
        have haf : af.length < rest.length + 1 := by
          have := hm _ _ _ hmr
          simpa using this
        have h1 : af.length ≤ f := by
          simp only [List.length_cons] at hs; omega
        have h2 : af.length ≤ g := by
          simp only [List.length_cons] at hg; omega
        dsimp only
        rw [ih af g h1 h2]

theorem scanG_fuel {m : Str → Option (Str × Str)} (hm : Shrinks m) :
    ∀ f s, s.length ≤ f → scanG m f s = scanG m s.length s :=
  fun f s hf => scanG_fuel_any hm f s s.length hf (Nat.le_refl _)

/-- Run a scanner over the whole string. -/
def runScan (m : Str → Option (Str × Str)) (s : Str) : List Str :=
  scanG m s.length s

theorem runScan_nil (m : Str → Option (Str × Str)) : runScan m [] = [] := rfl

theorem runScan_cons {m : Str → Option (Str × Str)} (hm : Shrinks m)
    (c : Char) (rest : Str) :
    runScan m (c :: rest) =
      match m (c :: rest) with
      | some (mt, af) => mt :: runScan m af
      | none => runScan m rest := by
  show scanG m (rest.length + 1) (c :: rest) = _
  simp only [scanG]
  cases hmr : m (c :: rest) with
  | none => rfl
  | some pr =>
    obtain ⟨mt, af⟩ := pr
    have haf : af.length < rest.length + 1 := by
      have := hm _ _ _ hmr
      simpa using this
    dsimp only
    rw [scanG_fuel hm rest.length af (by omega)]
    rfl

end Scanners

theorem length_dropWhile_le (p : Char → Bool) :
    ∀ s : Str, (s.dropWhile p).length ≤ s.length := by
  intro s
  induction s with
  | nil => simp [List.dropWhile]
  | cons c rest ih =>
    simp only [List.dropWhile]
    cases p c
    · simp
    · simp; omega

theorem isPrefB_length_le : ∀ p s : Str, isPrefB p s = true → p.length ≤ s.length := by
  intro p
  induction p with
  | nil => intro s _; simp
  | cons a ps ih =>
    intro s h
    cases s with
    | nil => simp [isPrefB] at h
    | cons c cs =>
      simp only [isPrefB, Bool.and_eq_true] at h
      have := ih cs h.2
      simp only [List.length_cons]
      omega

/-- Case-insensitive prefix test against an already-lowercased reference
pattern (models the `i` flag of a JS regex over the ASCII range). -/
def caselessPrefB : Str → Str → Bool
  | [], _ => true
  | _ :: _, [] => false
  | p :: ps, c :: cs => Char.toLower c == p && caselessPrefB ps cs

theorem caselessPrefB_length_le :
    ∀ p s : Str, caselessPrefB p s = true → p.length ≤ s.length := by
  intro p
  induction p with
  | nil => intro s _; simp
  | cons a ps ih =>
    intro s h
    cases s with
    | nil => simp [caselessPrefB] at h
    | cons c cs =>
      simp only [caselessPrefB, Bool.and_eq_true] at h
      have := ih cs h.2
      simp only [List.length_cons]
      omega

/-- One step of the global regex x7bx7b[^x7d]+x7dx7d (leftover-placeholder
scan of `validateBasicStructure`). -/
def matchPH (s : Str) : Option (Str × Str) :=
  match s with
  | c1 :: c2 :: t =>
    if c1 == lb && c2 == lb then
      let r := t.takeWhile fun c => !(c == rb)
      let u := t.dropWhile fun c => !(c == rb)
      if r.isEmpty then none
      else
        match u with
        | d1 :: d2 :: v =>
          if d1 == rb && d2 == rb then some (c1 :: c2 :: (r ++ [d1, d2]), v) else none
        | _ => none
    else none
  | _ => none

theorem matchPH_shrinks : Shrinks matchPH := by
  intro s mt af h
  match s with
  | [] => simp [matchPH] at h
  | [c1] => simp [matchPH] at h
  | c1 :: c2 :: t =>
    simp only [matchPH] at h
    by_cases hbr : (c1 == lb && c2 == lb) = true
    · rw [if_pos hbr] at h
      by_cases he : (t.takeWhile fun c => !(c == rb)).isEmpty = true
      · rw [if_pos he] at h; exact absurd h (by simp)
      · rw [if_neg he] at h
        match hu : t.dropWhile fun c => !(c == rb) with
        | [] => rw [hu] at h; exact absurd h (by simp)
        | [d1] => rw [hu] at h; exact absurd h (by simp)
        | d1 :: d2 :: v =>
          rw [hu] at h
          dsimp only at h
          by_cases hd : (d1 == rb && d2 == rb) = true
          · rw [if_pos hd] at h
            have hv : v.length + 2 ≤ t.length := by
              have := length_dropWhile_le (fun c => !(c == rb)) t
              rw [hu] at this
              simpa using this
            have hafv : v = af := by
              have := congrArg (fun o => (o.getD ([], [])).2) h
              simpa using this
            subst hafv
            simp only [List.length_cons]
            omega
          · rw [if_neg hd] at h; exact absurd h (by simp)
    · rw [if_neg hbr] at h; exact absurd h (by simp)

/-- One step of the global regex for open tags, `<[^\/!?][^>]*>`. -/
def matchOpenTag (s : Str) : Option (Str × Str) :=
  match s with
  | c1 :: c2 :: t =>
    if c1 == '<' && !(c2 == '/') && !(c2 == '!') && !(c2 == '?') then
      match t.dropWhile (fun c => !(c == '>')) with
      | d :: v => some (c1 :: c2 :: ((t.takeWhile fun c => !(c == '>')) ++ [d]), v)
      | [] => none
    else none
  | _ => none

theorem matchOpenTag_shrinks : Shrinks matchOpenTag := by
  intro s mt af h
  match s with
  | [] => simp [matchOpenTag] at h
  | [c1] => simp [matchOpenTag] at h
  | c1 :: c2 :: t =>
    simp only [matchOpenTag] at h
    by_cases hc : (c1 == '<' && !(c2 == '/') && !(c2 == '!') && !(c2 == '?')) = true
    · rw [if_pos hc] at h
      match hu : t.dropWhile fun c => !(c == '>') with
      | [] => rw [hu] at h; exact absurd h (by simp)
      | d :: v =>
        rw [hu] at h
        dsimp only at h
        have hv : v.length + 1 ≤ t.length := by
          have := length_dropWhile_le (fun c => !(c == '>')) t
          rw [hu] at this
          simpa using this
        have hafv : v = af := by
          have := congrArg (fun o => (o.getD ([], [])).2) h
          simpa using this
        subst hafv
        simp only [List.length_cons]
        omega
    · rw [if_neg hc] at h; exact absurd h (by simp)

/-- One step of the global regex for close tags, `<\/[^>]*>`. -/
def matchCloseTag (s : Str) : Option (Str × Str) :=
  match s with
  | c1 :: c2 :: t =>
    if c1 == '<' && c2 == '/' then
      match t.dropWhile (fun c => !(c == '>')) with
      | d :: v => some (c1 :: c2 :: ((t.takeWhile fun c => !(c == '>')) ++ [d]), v)
      | [] => none
    else none
  | _ => none

theorem matchCloseTag_shrinks : Shrinks matchCloseTag := by
  intro s mt af h
  match s with
  | [] => simp [matchCloseTag] at h
  | [c1] => simp [matchCloseTag] at h
  | c1 :: c2 :: t =>
    simp only [matchCloseTag] at h
    by_cases hc : (c1 == '<' && c2 == '/') = true
    · rw [if_pos hc] at h
      match hu : t.dropWhile fun c => !(c == '>') with
      | [] => rw [hu] at h; exact absurd h (by simp)
      | d :: v =>
        rw [hu] at h
        dsimp only at h
        have hv : v.length + 1 ≤ t.length := by
          have := length_dropWhile_le (fun c => !(c == '>')) t
          rw [hu] at this
          simpa using this
        have hafv : v = af := by
          have := congrArg (fun o => (o.getD ([], [])).2) h
          simpa using this
        subst hafv
        simp only [List.length_cons]
        omega
    · rw [if_neg hc] at h; exact absurd h (by simp)

/-- Literal part of the regex `processorArchitecture="([^"]+)"`. -/
def archLit : Str := "processorArchitecture=\"".toList

/-- One step of the architecture regex of `validateWindowsComponents`. -/
def matchArch (s : Str) : Option (Str × Str) :=
  if isPrefB archLit s then
    let t := s.drop archLit.length
    let r := t.takeWhile fun c => !(c == '\"')
    let u := t.dropWhile fun c => !(c == '\"')
    if r.isEmpty then none
    else
      match u with
      | d :: v => some (archLit ++ r ++ [d], v)
      | [] => none
  else none

theorem matchArch_shrinks : Shrinks matchArch := by
  intro s mt af h
  simp only [matchArch] at h
  by_cases hp : isPrefB archLit s = true
  · rw [if_pos hp] at h
    have hlen : archLit.length ≤ s.length := isPrefB_length_le _ _ hp
    by_cases he : ((s.drop archLit.length).takeWhile fun c => !(c == '\"')).isEmpty = true
    · rw [if_pos he] at h; exact absurd h (by simp)
    · rw [if_neg he] at h
      match hu : (s.drop archLit.length).dropWhile fun c => !(c == '\"') with
      | [] => rw [hu] at h; exact absurd h (by simp)
      | d :: v =>
        rw [hu] at h
        dsimp only at h
        have hv : v.length + 1 ≤ (s.drop archLit.length).length := by
          have := length_dropWhile_le (fun c => !(c == '\"')) (s.drop archLit.length)
          rw [hu] at this
          simpa using this
        have hafv : v = af := by
          have := congrArg (fun o => (o.getD ([], [])).2) h
          simpa using this
        subst hafv
        have h23 : archLit.length = 23 := by decide
        simp only [List.length_drop] at hv
        omega
  · rw [if_neg hp] at h; exact absurd h (by simp)

/-- Lowercased literals for the case-insensitive password regex
`<Password>([^<]+)<\/Password>` with flags `gi`. -/
def pwOpenL : Str := "<password>".toList

def pwCloseL : Str := "</password>".toList

/-- One step of the password regex; the emitted match keeps the original
casing, as JS `String.match` does. -/
def matchPassword (s : Str) : Option (Str × Str) :=
  if caselessPrefB pwOpenL s then
    let t := s.drop pwOpenL.length
    let inner := t.takeWhile fun c => !(c == '<')
    let u := t.dropWhile fun c => !(c == '<')
    if inner.isEmpty then none
    else if caselessPrefB pwCloseL u then
      some (s.take (pwOpenL.length + inner.length + pwCloseL.length), u.drop pwCloseL.length)
    else none
  else none

theorem matchPassword_shrinks : Shrinks matchPassword := by
  intro s mt af h
  simp only [matchPassword] at h
  by_cases hp : caselessPrefB pwOpenL s = true
  · rw [if_pos hp] at h
    have hlen : pwOpenL.length ≤ s.length := caselessPrefB_length_le _ _ hp
    by_cases he : ((s.drop pwOpenL.length).takeWhile fun c => !(c == '<')).isEmpty = true
    · rw [if_pos he] at h; exact absurd h (by simp)
    · rw [if_neg he] at h
      by_cases hcl :
          caselessPrefB pwCloseL ((s.drop pwOpenL.length).dropWhile fun c => !(c == '<')) = true
      · rw [if_pos hcl] at h
        have hul : pwCloseL.length ≤
            ((s.drop pwOpenL.length).dropWhile fun c => !(c == '<')).length :=
          caselessPrefB_length_le _ _ hcl
        have hud : ((s.drop pwOpenL.length).dropWhile fun c => !(c == '<')).length ≤
            (s.drop pwOpenL.length).length :=
          length_dropWhile_le _ _
        have hafv : ((s.drop pwOpenL.length).dropWhile fun c => !(c == '<')).drop
            pwCloseL.length = af := by
          have := congrArg (fun o => (o.getD ([], [])).2) h
          simpa using this
        have h10 : pwOpenL.length = 10 := by decide
        have h11 : pwCloseL.length = 11 := by decide
        have : af.length =
            ((s.drop pwOpenL.length).dropWhile fun c => !(c == '<')).length -
              pwCloseL.length := by
          rw [← hafv, List.length_drop]
        simp only [List.length_drop] at hud
        have hs0 : 0 < s.length := by omega
        omega
      · rw [if_neg hcl] at h; exact absurd h (by simp)
  · rw [if_neg hp] at h; exact absurd h (by simp)

/-- All leftover-placeholder matches in a document. -/
def scanPH (s : Str) : List Str := runScan matchPH s

/-- All open-tag matches. -/
def openTags (s : Str) : List Str := runScan matchOpenTag s

/-- All close-tag matches. -/
def closeTags (s : Str) : List Str := runScan matchCloseTag s

/-- All `processorArchitecture="..."` matches. -/
def archMatches (s : Str) : List Str := runScan matchArch s

/-- All `<Password>...</Password>` matches (case-insensitive). -/
def pwMatches (s : Str) : List Str := runScan matchPassword s

section Base64

/-- Value of a base64 alphabet character; characters outside the alphabet
(including padding) yield `none` and are skipped by the Node decoder. -/
def b64val (c : Char) : Option Nat :=
  if 65 ≤ c.toNat ∧ c.toNat ≤ 90 then some (c.toNat - 65)
  else if 97 ≤ c.toNat ∧ c.toNat ≤ 122 then some (c.toNat - 97 + 26)
  else if 48 ≤ c.toNat ∧ c.toNat ≤ 57 then some (c.toNat - 48 + 52)
  else if c == '+' then some 62
  else if c == '/' then some 63
  else none

/-- Pack a list of 6-bit values into bytes, truncating trailing bits, as the
Node base64 decoder does. -/
def b64bits : List Nat → Nat → Nat → List Nat
  | [], _, _ => []
  | v :: vs, acc, n =>
    let acc2 := acc * 64 + v
    let n2 := n + 6
    if 8 ≤ n2 then (acc2 / 2 ^ (n2 - 8)) :: b64bits vs (acc2 % 2 ^ (n2 - 8)) (n2 - 8)
    else b64bits vs acc2 n2

/-- Node `Buffer.from(s, 'base64')`. -/
def b64decode (s : Str) : List Nat := b64bits (s.filterMap b64val) 0 0

def b64alphabet : Str :=
  "ABCDEFGHIJKLMNOPQRSTUVWXYZabcdefghijklmnopqrstuvwxyz0123456789+/".toList

def b64chr (n : Nat) : Char := b64alphabet.getD n 'A'

/-- Canonical base64 encoding of a byte list, with padding, as produced by
Node `buf.toString('base64')`. -/
def b64enc : List Nat → Str
  | [] => []
  | [b1] => [b64chr (b1 / 4), b64chr (b1 % 4 * 16), '=', '=']
  | [b1, b2] => [b64chr (b1 / 4), b64chr (b1 % 4 * 16 + b2 / 16), b64chr (b2 % 16 * 4), '=']
  | b1 :: b2 :: b3 :: rest =>
    b64chr (b1 / 4) :: b64chr (b1 % 4 * 16 + b2 / 16) ::
      b64chr (b2 % 16 * 4 + b3 / 64) :: b64chr (b3 % 64) :: b64enc rest

/-- `XmlValidator.isBase64`:
`Buffer.from(str, 'base64').toString('base64') === str`. -/
def isBase64 (s : Str) : Bool := b64enc (b64decode s) == s

/-- The U+FFFD replacement character. -/
def repl : Char := Char.ofNat 65533

/-- Node `buf.toString()` — UTF-8 decoding with U+FFFD replacement for
invalid sequences. -/
def utf8dec : List Nat → Str
  | [] => []
  | b :: rest =>
    if b < 128 then Char.ofNat b :: utf8dec rest
    else if b < 194 then repl :: utf8dec rest
    else if b < 224 then
      match rest with
      | b2 :: r2 =>
        if 128 ≤ b2 ∧ b2 < 192 then Char.ofNat ((b - 192) * 64 + (b2 - 128)) :: utf8dec r2
        else repl :: utf8dec (b2 :: r2)
      | [] => [repl]
    else if b < 240 then
      match rest with
      | b2 :: b3 :: r3 =>
        if (128 ≤ b2 ∧ b2 < 192) ∧ (128 ≤ b3 ∧ b3 < 192) then
          Char.ofNat ((b - 224) * 4096 + (b2 - 128) * 64 + (b3 - 128)) :: utf8dec r3
        else repl :: utf8dec (b2 :: b3 :: r3)
      | [_] => [repl, repl]
      | [] => [repl]
    else if b < 245 then
      match rest with
      | b2 :: b3 :: b4 :: r4 =>
        if (128 ≤ b2 ∧ b2 < 192) ∧ (128 ≤ b3 ∧ b3 < 192) ∧ (128 ≤ b4 ∧ b4 < 192) then
          Char.ofNat ((b - 240) * 262144 + (b2 - 128) * 4096 + (b3 - 128) * 64 + (b4 - 128)) ::
            utf8dec r4
        else repl :: utf8dec (b2 :: b3 :: b4 :: r4)
      | [_, _] => [repl, repl, repl]
      | [_] => [repl, repl]
      | [] => [repl]
    else repl :: utf8dec rest

end Base64

/-- Case-sensitive literals stripped from a password match by
`password.replace(/<\/?Password>/g, '')`. -/
def pwOpenCS : Str := "<Password>".toList

def pwCloseCS : Str := "</Password>".toList

def stripTagsGo : Nat → Str → Str
  | 0, _ => []
  | _ + 1, [] => []
  | f + 1, c :: rest =>
    if isPrefB pwCloseCS (c :: rest) then stripTagsGo f ((c :: rest).drop pwCloseCS.length)
    else if isPrefB pwOpenCS (c :: rest) then stripTagsGo f ((c :: rest).drop pwOpenCS.length)
    else c :: stripTagsGo f rest

/-- `password.replace(/<\/?Password>/g, '')` — removes every case-sensitive
occurrence of the opening or closing Password tag. -/
def stripTags (s : Str) : Str := stripTagsGo s.length s

section Validator

/-- `ValidationResult` of the XmlValidator. -/
structure ValidationResult where
  isValid : Bool
  errors : List Str
  warnings : List Str
  suggestions : List Str
deriving DecidableEq, Repr

def declTok : Str := "<?xml version=\"1.0\"".toList

def rootTok : Str := "<unattend xmlns=\"urn:schemas-microsoft-com:unattend\">".toList

def closeTok : Str := "</unattend>".toList

def declErrMsg : Str := "Missing XML declaration".toList

def rootErrMsg : Str := "Missing or invalid unattend root element".toList

def closeErrMsg : Str := "Missing closing unattend tag".toList

def tagWarnMsg : Str := "Potential tag mismatch detected".toList

def commaSep : Str := ", ".toList

def phErrPre : Str := "Unreplaced placeholders found: ".toList

/-- The single leftover-placeholder error message: all matches joined. -/
def phErrMsg (phs : List Str) : Str := phErrPre ++ joinSep commaSep phs

/-- `XmlValidator.validateBasicStructure`: returns the errors and warnings it
pushes, in push order. -/
def validateBasicStructure (content : Str) : List Str × List Str :=
  let errs1 :=
    (if containsSub content declTok then [] else [declErrMsg]) ++
    (if containsSub content rootTok then [] else [rootErrMsg]) ++
    (if containsSub content closeTok then [] else [closeErrMsg])
  let warns :=
    if (openTags content).length == (closeTags content).length then [] else [tagWarnMsg]
  let phs := scanPH content
  (errs1 ++ (if phs.isEmpty then [] else [phErrMsg phs]), warns)

def setupComp : Str := "Microsoft-Windows-Setup".toList

def shellSetupComp : Str := "Microsoft-Windows-Shell-Setup".toList

def luaComp : Str := "Microsoft-Windows-LUA-Settings".toList

def oobeComp : Str := "Microsoft-Windows-OutOfBoxExperience".toList

def reqCompMsg (c : Str) : Str := "Recommended component missing: ".toList ++ c

def depCompMsg (c : Str) : Str := "Deprecated component found: ".toList ++ c

def archWarnMsg : Str :=
  "Multiple processor architectures detected - ensure consistency".toList

/-- `XmlValidator.validateWindowsComponents`: warnings pushed, in order. -/
def validateWindowsComponents (content : Str) : List Str :=
  (if containsSub content setupComp then [] else [reqCompMsg setupComp]) ++
  (if containsSub content shellSetupComp then [] else [reqCompMsg shellSetupComp]) ++
  (if containsSub content luaComp then [depCompMsg luaComp] else []) ++
  (if containsSub content oobeComp then [depCompMsg oobeComp] else []) ++
  (if 1 < (archMatches content).dedup.length then [archWarnMsg] else [])

def ptWarnMsg : Str :=
  "Plaintext password detected - consider using Base64 encoding".toList

def weakWarnMsg : Str := "Weak password detected".toList

def alWarnMsg : Str := "Auto-logon enabled without password".toList

def autoLogonTag : Str := "<AutoLogon>".toList

def weakList : List Str :=
  ["password".toList, "123456".toList, "admin".toList, "user".toList]

/-- The decoded password used for the weak-password check: Base64-decoded
when the value round-trips, the raw value otherwise. -/
def decodedOf (v : Str) : Str := if isBase64 v then utf8dec (b64decode v) else v

/-- Weak-password test:
`weakPasswords.some(w => decoded.toLowerCase().includes(w))`. -/
def weakAny (s : Str) : Bool := weakList.any fun w => containsSub (lowerStr s) w

/-- Warnings produced for one `<Password>...</Password>` match. -/
def pwPerMatch (m : Str) : List Str :=
  let v := stripTags m
  (if isBase64 v then [] else [ptWarnMsg]) ++
  (if weakAny (decodedOf v) then [weakWarnMsg] else [])

/-- `XmlValidator.validatePasswordSecurity`: warnings pushed, in order. -/
def validatePasswordSecurity (content : Str) : List Str :=
  ((pwMatches content).map pwPerMatch).flatten ++
  (if containsSub content autoLogonTag && !containsSub content pwOpenCS then [alWarnMsg]
   else [])

def suggWU : Str := "Consider adding Windows Update configuration".toList

def suggIntl : Str := "Consider adding international/regional settings".toList

def suggDisk : Str := "Consider adding explicit disk configuration".toList

def suggWER : Str := "Consider configuring Windows Error Reporting settings".toList

def wuComp : Str := "Microsoft-Windows-WindowsUpdateServices".toList

def intlComp : Str := "Microsoft-Windows-International".toList

def diskTag : Str := "<DiskConfiguration>".toList

def werTag : Str := "DoNotSendAdditionalData".toList

/-- `XmlValidator.suggestOptimizations`: suggestions pushed, in order. -/
def suggestOptimizations (content : Str) : List Str :=
  (if containsSub content wuComp then [] else [suggWU]) ++
  (if containsSub content intlComp then [] else [suggIntl]) ++
  (if containsSub content diskTag then [] else [suggDisk]) ++
  (if containsSub content werTag then [] else [suggWER])

def outputPathS : Str := "unattended/build/autounattend.xml".toList

def fileNotFoundMsg : Str := "XML file not found: ".toList ++ outputPathS

/-- `XmlValidator.validateAutounattendXml` on the content of the output file
(`none` models a missing file).  `isValid` starts `true` and is set to
`false` at the end exactly when the error list is non-empty, as in the
source. -/
def validateAutounattendXml (file : Option Str) : ValidationResult :=
  match file with
  | none => { isValid := false, errors := [fileNotFoundMsg], warnings := [], suggestions := [] }
  | some content =>
    let bs := validateBasicStructure content
    let wc := validateWindowsComponents content
    let ps := validatePasswordSecurity content
    let so := suggestOptimizations content
    let errs := bs.1
    { isValid := !(0 < errs.length : Bool)
      errors := errs
      warnings := bs.2 ++ wc ++ ps
      suggestions := so }

end Validator

section Builder

/-- The seven pass files keyed in the declared mapping order
(WINDOWSPE, OFFLINESERVICING, GENERALIZE, SPECIALIZE, AUDITSYSTEM,
AUDITUSER, OOBESYSTEM); `none` models an absent file. -/
abbrev Fragments := Fin 7 → Option Str

def passNames : List Str :=
  ["windowspe".toList, "offlineservicing".toList, "generalize".toList,
   "specialize".toList, "auditsystem".toList, "audituser".toList, "oobesystem".toList]

def passName (k : Fin 7) : Str := passNames.getD k.val []

def phNames : List Str :=
  ["WINDOWSPE_PASS".toList, "OFFLINESERVICING_PASS".toList, "GENERALIZE_PASS".toList,
   "SPECIALIZE_PASS".toList, "AUDITSYSTEM_PASS".toList, "AUDITUSER_PASS".toList,
   "OOBESYSTEM_PASS".toList]

def phName (k : Fin 7) : Str := phNames.getD k.val []

/-- A placeholder-shaped token around a name. -/
def mkTok (n : Str) : Str := lb :: lb :: (n ++ [rb, rb])

/-- The placeholder token of pass `k`, e.g. the WINDOWSPE one for `k = 0`. -/
def phTok (k : Fin 7) : Str := mkTok (phName k)

def passesDirS : Str := "unattended/passes/".toList

def xmlExt : Str := ".xml".toList

def passPath (k : Fin 7) : Str := passesDirS ++ passName k ++ xmlExt

def templatePathS : Str :=
  "unattended/templates/autounattend-template.xml".toList

def missingPassMsg (k : Fin 7) : Str := "Pass file not found: ".toList ++ passPath k

def tplMissingMsg : Str := "Template file not found: ".toList ++ templatePathS

/-- `AutoUnattendBuilder.readPassFile`: returns the file content (or the
empty string when the file is absent), the increment applied to
`buildStats.passesProcessed`, and the warnings logged. -/
def readPassFile (f : Fragments) (k : Fin 7) : Str × Nat × List Str :=
  match f k with
  | none => ([], 0, [missingPassMsg k])
  | some c => (c, 1, [])

/-- The mapping order of `passMapping` in `buildAutounattend`
(`Object.entries` preserves the declared key order). -/
def passOrder : List (Fin 7) := [0, 1, 2, 3, 4, 5, 6]

/-- The substitution loop of `AutoUnattendBuilder.buildAutounattend`:
for each mapping entry in order, read the pass file and replace the first
occurrence of the placeholder in the current template.  Returns the
assembled text, the processed-pass count and the logged warnings. -/
def assemble (tpl : Str) (f : Fragments) : Str × Nat × List Str :=
  passOrder.foldl
    (fun acc k =>
      let r := readPassFile f k
      (replFirst (phTok k) r.1 acc.1, acc.2.1 + r.2.1, acc.2.2 ++ r.2.2))
    (tpl, 0, [])

/-- `BuildStats` (timestamps are abstract ticks supplied by the caller). -/
structure BuildStats where
  startTime : Nat
  endTime : Nat
  duration : Nat
  passesProcessed : Nat
  fileSize : Nat
deriving DecidableEq, Repr

/-- `BuildResult` of `AutoUnattendBuilder.build`. -/
structure BuildResult where
  success : Bool
  outputPath : Option Str
  isValid : Option Bool
  error : Option Str
  warnings : Option (List Str)
  buildStats : BuildStats
deriving DecidableEq, Repr

/-- Explicit file-system state: template file, pass files, output file. -/
structure FSState where
  template : Option Str
  frags : Fragments
  outFile : Option Str

/-- `AutoUnattendBuilder.build` with `t1`/`t2` the start and end clock
ticks: assemble (aborting when the template file is missing), write the
output file, validate it, and report.  Returns the result, the file system
after the run, and the logged warnings. -/
def build (fs : FSState) (t1 t2 : Nat) : BuildResult × FSState × List Str :=
  match fs.template with
  | none =>
    ({ success := false
       outputPath := none
       isValid := none
       error := some tplMissingMsg
       warnings := none
       buildStats :=
         { startTime := t1, endTime := t2, duration := t2 - t1
           passesProcessed := 0, fileSize := 0 } },
     fs, [])
  | some tpl =>
    let a := assemble tpl fs.frags
    let vr := validateAutounattendXml (some a.1)
    ({ success := true
       outputPath := some outputPathS
       isValid := some vr.isValid
       error := none
       warnings := some vr.warnings
       buildStats :=
         { startTime := t1, endTime := t2, duration := t2 - t1
           passesProcessed := a.2.1, fileSize := a.1.length } },
     { fs with outFile := some a.1 }, a.2.2)

end Builder

section ReplFirstSpec

theorem isPrefB_append_self : ∀ p t : Str, isPrefB p (p ++ t) = true := by
  intro p
  induction p with
  | nil => intro t; rfl
  | cons a ps ih => intro t; simp [isPrefB, ih]

theorem eq_append_of_isPrefB :
    ∀ p s : Str, isPrefB p s = true → s = p ++ s.drop p.length := by
  intro p
  induction p with
  | nil => intro s _; simp
  | cons a ps ih =>
    intro s h
    cases s with
    | nil => simp [isPrefB] at h
    | cons c cs =>
      simp only [isPrefB, Bool.and_eq_true, beq_iff_eq] at h
      obtain ⟨rfl, h2⟩ := h
      have := ih cs h2
      simp only [List.length_cons, List.drop_succ_cons, List.cons_append]
      exact congrArg _ this

theorem getSubst_dollarFree (m b a : Str) :
    ∀ r : Str, dollarFreeB r = true → getSubst m b a r = r := by
  intro r
  induction r with
  | nil => intro _; rfl
  | cons c tail ih =>
    intro h
    have hc : (c == '$') = false := by
      have := (List.all_eq_true.mp h) c (List.mem_cons_self c tail)
      simpa using this
    have htail : dollarFreeB tail = true := by
      simp only [dollarFreeB, List.all_cons, Bool.and_eq_true] at h
      exact h.2
    cases tail with
    | nil => rfl
    | cons d rest =>
      simp only [getSubst, hc, Bool.false_eq_true, if_false]
      exact congrArg _ (ih htail)

theorem splitFirst_none_of_not_contains :
    ∀ (pat s : Str), containsSub s pat = false → splitFirst pat s = none := by
  intro pat s
  induction s with
  | nil =>
    intro h
    simp only [containsSub] at h
    simp [splitFirst, h]
  | cons c r ih =>
    intro h
    simp only [containsSub, Bool.or_eq_false_iff] at h
    simp only [splitFirst, h.1, if_false, Bool.false_eq_true]
    rw [ih h.2]

theorem replFirst_of_not_contains :
    ∀ (pat rep s : Str), containsSub s pat = false → replFirst pat rep s = s := by
  intro pat rep s h
  simp [replFirst, splitFirst_none_of_not_contains pat s h]

theorem splitFirst_of_contains :
    ∀ (pat s : Str), containsSub s pat = true →
      ∃ b a, splitFirst pat s = some (b, a) ∧ s = b ++ pat ++ a ∧
        ∀ b2 a2, s = b2 ++ pat ++ a2 → b.length ≤ b2.length := by
  intro pat s
  induction s with
  | nil =>
    intro h
    simp only [containsSub, List.isEmpty_iff] at h
    subst h
    exact ⟨[], [], by simp [splitFirst], rfl, fun b2 a2 _ => Nat.zero_le _⟩
  | cons c r ih =>
    intro h
    by_cases hp : isPrefB pat (c :: r) = true
    · refine ⟨[], (c :: r).drop pat.length, ?_, ?_, fun b2 a2 _ => Nat.zero_le _⟩
      · simp [splitFirst, hp]
      · simpa using eq_append_of_isPrefB pat (c :: r) hp
    · have hr : containsSub r pat = true := by
        simp only [containsSub, Bool.or_eq_true] at h
        rcases h with h | h
        · exact absurd h hp
        · exact h
      obtain ⟨b, a, h1, h2, h3⟩ := ih hr
      refine ⟨c :: b, a, ?_, by simp [h2], ?_⟩
      · simp only [splitFirst, hp, if_false, Bool.false_eq_true]
        rw [h1]
      · intro b2 a2 heq
        cases b2 with
        | nil =>
          exfalso
          apply hp
          simp only [List.nil_append] at heq
          rw [heq]
          exact isPrefB_append_self pat a2
        | cons d b2t =>
          simp only [List.cons_append, List.cons.injEq] at heq
          have := h3 b2t a2 heq.2
          simp only [List.length_cons]
          omega

theorem replFirst_of_contains :
    ∀ (pat rep s : Str), containsSub s pat = true →
      ∃ b a, s = b ++ pat ++ a ∧ replFirst pat rep s = b ++ getSubst pat b a rep ++ a ∧
        ∀ b2 a2, s = b2 ++ pat ++ a2 → b.length ≤ b2.length := by
  intro pat rep s h
  obtain ⟨b, a, h1, h2, h3⟩ := splitFirst_of_contains pat s h
  exact ⟨b, a, h2, by simp [replFirst, h1], h3⟩

end ReplFirstSpec

section PassThrough

theorem containsSub_self : ∀ s : Str, containsSub s s = true := by
  intro s
  cases s with
  | nil => rfl
  | cons c r =>
    simp only [containsSub, Bool.or_eq_true]
    left
    have := isPrefB_append_self (c :: r) []
    simpa using this

theorem containsSub_append_left :
    ∀ a b pat : Str, containsSub a pat = true → containsSub (a ++ b) pat = true := by
  intro a
  induction a with
  | nil =>
    intro b pat h
    simp only [containsSub, List.isEmpty_iff] at h
    subst h
    cases b with
    | nil => rfl
    | cons c r => simp [containsSub, isPrefB]
  | cons c r ih =>
    intro b pat h
    simp only [containsSub, Bool.or_eq_true] at h ⊢
    rcases h with h | h
    · left
      have := eq_append_of_isPrefB pat (c :: r) h
      calc isPrefB pat (c :: r ++ b)
          = isPrefB pat (pat ++ ((c :: r).drop pat.length ++ b)) := by
            rw [← List.append_assoc, ← this]
        _ = true := isPrefB_append_self _ _
    · right; exact ih b pat h

theorem containsSub_append_right :
    ∀ a b pat : Str, containsSub b pat = true → containsSub (a ++ b) pat = true := by
  intro a
  induction a with
  | nil => intro b pat h; simpa using h
  | cons c r ih =>
    intro b pat h
    simp only [List.cons_append, containsSub, Bool.or_eq_true]
    right
    exact ih b pat h

/-- A mismatch strictly inside `x` kills any prefix match of `p`, whatever
comes after `x`. -/
theorem isPrefB_false_of_mismatch :
    ∀ (d : Nat) (p x t : Str), d < x.length → d < p.length → p.get? d ≠ x.get? d →
      isPrefB p (x ++ t) = false := by
  intro d
  induction d with
  | zero =>
    intro p x t hx hp hne
    cases p with
    | nil => simp at hp
    | cons a ps =>
      cases x with
      | nil => simp at hx
      | cons c xs =>
        simp only [List.get?] at hne
        have hac : ¬a = c := fun h => hne (by rw [h])
        simp [isPrefB, hac]
  | succ d ih =>
    intro p x t hx hp hne
    cases p with
    | nil => simp at hp
    | cons a ps =>
      cases x with
      | nil => simp at hx
      | cons c xs =>
        simp only [List.length_cons] at hx
        simp only [List.length_cons] at hp
        simp only [List.get?] at hne
        have := ih ps xs t (by omega) (by omega) hne
        simp [isPrefB, this]

/-- Every position strictly inside `a` carries a mismatch against `p` that
lies strictly inside `a`; such an `a` lets `replFirst` pass over it. -/
def Blocks (p a : Str) : Prop :=
  ∀ i, i < a.length → ∃ d, d < p.length ∧ i + d < a.length ∧ p.get? d ≠ a.get? (i + d)

theorem blocks_tail {p : Str} {c : Char} {a : Str} (h : Blocks p (c :: a)) : Blocks p a := by
  intro i hi
  obtain ⟨d, hd1, hd2, hd3⟩ := h (i + 1) (by simp only [List.length_cons]; omega)
  refine ⟨d, hd1, by simp only [List.length_cons] at hd2; omega, ?_⟩
  simpa [Nat.add_right_comm] using hd3

theorem splitFirst_append_of_blocks {p : Str} :
    ∀ (x : Str), Blocks p x → ∀ (t : Str),
      splitFirst p (x ++ t) =
        match splitFirst p t with
        | none => none
        | some (b, a) => some (x ++ b, a) := by
  intro x
  induction x with
  | nil =>
    intro _ t
    cases hs : splitFirst p t with
    | none => simp [hs]
    | some pr => obtain ⟨b, a⟩ := pr; simp [hs]
  | cons c x ih =>
    intro h t
    obtain ⟨d, hd1, hd2, hd3⟩ := h 0 (by simp only [List.length_cons]; omega)
    have hfalse : isPrefB p ((c :: x) ++ t) = false :=
      isPrefB_false_of_mismatch d p (c :: x) t (by simpa using hd2) hd1 (by simpa using hd3)
    simp only [List.cons_append] at hfalse ⊢
    simp only [splitFirst, hfalse, if_false, Bool.false_eq_true]
    rw [ih (blocks_tail h) t]
    cases hs : splitFirst p t with
    | none => rfl
    | some pr => obtain ⟨b, a⟩ := pr; rfl

/-- Passing over blocking text: with a dollar-free replacement (so
GetSubstitution is insensitive to the surrounding context) replacement
commutes with prepending text in which no match can start. -/
theorem replFirst_append_of_blocks {p : Str} (x : Str) (hb : Blocks p x)
    {r : Str} (hr : dollarFreeB r = true) (t : Str) :
    replFirst p r (x ++ t) = x ++ replFirst p r t := by
  simp only [replFirst]
  rw [splitFirst_append_of_blocks x hb t]
  cases hs : splitFirst p t with
  | none => rfl
  | some pr =>
    obtain ⟨b, a⟩ := pr
    simp only [getSubst_dollarFree _ _ _ r hr]
    simp [List.append_assoc]

theorem braceFree_get {s : Str} (h : braceFreeB s = true) {j : Nat} {c : Char}
    (hj : s.get? j = some c) : c ≠ lb ∧ c ≠ rb := by
  have hm : c ∈ s := List.get?_mem hj
  have := (List.all_eq_true.mp h) c hm
  simp only [Bool.and_eq_true, Bool.not_eq_true', beq_eq_false_iff_ne] at this
  exact this

theorem blocks_of_braceFree {p s : Str} (hs : braceFreeB s = true)
    (hp : p.get? 0 = some lb) : Blocks p s := by
  intro i hi
  refine ⟨0, ?_, by omega, ?_⟩
  · cases p with
    | nil => simp at hp
    | cons a ps => simp
  · rw [hp]
    cases hg : s.get? i with
    | none =>
      intro hcon
      simp only [Nat.add_zero] at hcon
      rw [hg] at hcon
      exact Option.noConfusion hcon
    | some c =>
      have hcne := (braceFree_get hs hg).1
      intro hcon
      simp only [Nat.add_zero] at hcon
      rw [hg] at hcon
      exact hcne (Option.some.inj hcon).symm

end PassThrough

section TokenBlocks

theorem mkTok_length (x : Str) : (mkTok x).length = x.length + 4 := by
  simp [mkTok]

theorem mkTok_get_zero (x : Str) : (mkTok x).get? 0 = some lb := rfl

theorem mkTok_get_one (x : Str) : (mkTok x).get? 1 = some lb := rfl

theorem mkTok_get_two (x : Str) (j : Nat) :
    (mkTok x).get? (j + 2) = (x ++ [rb, rb]).get? j := rfl

theorem lb_ne_rb : lb ≠ rb := by decide

/-- Any character of a token body-or-closing is not an opening brace. -/
theorem tok_tail_ne_lb {m : Str} (hm : braceFreeB m = true) {j : Nat} {c : Char}
    (h : (m ++ [rb, rb]).get? j = some c) : c ≠ lb := by
  have hmem : c ∈ m ++ [rb, rb] := List.get?_mem h
  rcases List.mem_append.mp hmem with hc | hc
  · have := (List.all_eq_true.mp hm) c hc
    simp only [Bool.and_eq_true, Bool.not_eq_true', beq_eq_false_iff_ne] at this
    exact this.1
  · simp only [List.mem_cons, List.not_mem_nil, or_false] at hc
    rcases hc with rfl | rfl
    · exact fun h => lb_ne_rb h.symm
    · exact fun h => lb_ne_rb h.symm

/-- Distinct brace-free names give mutually blocking tokens: one token can
never start inside another. -/
theorem blocks_mkTok {n m : Str} (hn : braceFreeB n = true) (hm : braceFreeB m = true)
    (hne : n ≠ m) : Blocks (mkTok n) (mkTok m) := by
  intro i hi
  rw [mkTok_length] at hi
  match i, hi with
  | 0, _ =>
    have hex : ∃ j, n.get? j ≠ m.get? j := by
      by_contra hcon
      push_neg at hcon
      exact hne (List.ext_get? hcon)
    obtain ⟨j, hj⟩ := hex
    rcases Nat.lt_or_ge j n.length with hjn | hjn
    · rcases Nat.lt_or_ge j m.length with hjm | hjm
      · -- mismatch inside both names
        refine ⟨j + 2, by rw [mkTok_length]; omega, by rw [mkTok_length]; omega, ?_⟩
        simp only [Nat.zero_add, mkTok_get_two]
        rw [List.get?_append hjn, List.get?_append hjm]
        exact hj
      · -- m ends first: the name character of n meets the closing brace of m
        refine ⟨m.length + 2, by rw [mkTok_length]; omega, by rw [mkTok_length]; omega, ?_⟩
        simp only [Nat.zero_add, mkTok_get_two]
        rw [List.get?_append (by omega : m.length < n.length),
          List.get?_append_right (Nat.le_refl m.length)]
        simp only [Nat.sub_self, List.get?]
        cases hg : n.get? m.length with
        | none =>
          rw [List.get?_eq_none] at hg
          omega
        | some c =>
          have := (braceFree_get hn hg).2
          intro hcon
          exact this (Option.some.inj hcon)
    · -- n ends first: the closing brace of n meets a name character of m
      have hjm : j < m.length := by
        by_contra hcon
        push_neg at hcon
        apply hj
        rw [List.get?_eq_none.mpr hjn, List.get?_eq_none.mpr hcon]
      refine ⟨n.length + 2, by rw [mkTok_length]; omega, by rw [mkTok_length]; omega, ?_⟩
      simp only [Nat.zero_add, mkTok_get_two]
      rw [List.get?_append_right (Nat.le_refl n.length),
        List.get?_append (by omega : n.length < m.length)]
      simp only [Nat.sub_self, List.get?]
      cases hg : m.get? n.length with
      | none =>
        rw [List.get?_eq_none] at hg
        omega
      | some c =>
        have := (braceFree_get hm hg).2
        intro hcon
        exact this (Option.some.inj hcon).symm
  | 1, _ =>
    refine ⟨1, by rw [mkTok_length]; omega, by rw [mkTok_length]; omega, ?_⟩
    rw [mkTok_get_one]
    show some lb ≠ (mkTok m).get? 2
    rw [show (2 : Nat) = 0 + 2 from rfl, mkTok_get_two]
    cases hg : (m ++ [rb, rb]).get? 0 with
    | none =>
      rw [List.get?_eq_none] at hg
      simp at hg
    | some c =>
      have := tok_tail_ne_lb hm hg
      intro hcon
      exact this (Option.some.inj hcon).symm
  | Nat.succ (Nat.succ i2), _ =>
    refine ⟨0, by rw [mkTok_length]; omega, by rw [mkTok_length]; omega, ?_⟩
    rw [mkTok_get_zero]
    have : i2 + 2 + 0 = i2 + 2 := by omega
    rw [this, mkTok_get_two]
    cases hg : (m ++ [rb, rb]).get? i2 with
    | none =>
      rw [List.get?_eq_none] at hg
      simp only [List.length_append, List.length_cons, List.length_nil] at hg
      omega
    | some c =>
      have := tok_tail_ne_lb hm hg
      intro hcon
      exact this (Option.some.inj hcon).symm

end TokenBlocks

section Segments

/-- A decomposition segment of a template: plain text, a recognized
placeholder, or an unrecognized (alien) placeholder-shaped token. -/
inductive Seg where
  | txt : Str → Seg
  | ph : Fin 7 → Seg
  | alien : Str → Seg
deriving DecidableEq

def segStr : Seg → Str
  | Seg.txt s => s
  | Seg.ph k => phTok k
  | Seg.alien n => mkTok n

def render : List Seg → Str
  | [] => []
  | s :: L => segStr s ++ render L

theorem render_append : ∀ L1 L2, render (L1 ++ L2) = render L1 ++ render L2 := by
  intro L1
  induction L1 with
  | nil => intro L2; rfl
  | cons s L ih => intro L2; simp [render, ih, List.append_assoc]

/-- How many segments are the recognized placeholder `k`. -/
def phCount (k : Fin 7) : List Seg → Nat
  | [] => 0
  | Seg.txt _ :: L => phCount k L
  | Seg.alien _ :: L => phCount k L
  | Seg.ph j :: L => (if j = k then 1 else 0) + phCount k L

/-- Replace every `ph k` segment by text `r`. -/
def substSeg (k : Fin 7) (r : Str) : Seg → Seg
  | Seg.ph j => if j = k then Seg.txt r else Seg.ph j
  | s => s

/-- Well-formed segment: text is brace-free; an alien token has a non-empty
brace-free name that is none of the recognized placeholder names. -/
def SegOk : Seg → Prop
  | Seg.txt s => braceFreeB s = true
  | Seg.ph _ => True
  | Seg.alien n => braceFreeB n = true ∧ n ≠ [] ∧ ∀ k, n ≠ phName k

theorem phName_braceFree : ∀ k : Fin 7, braceFreeB (phName k) = true := by decide

theorem phName_injective : ∀ j k : Fin 7, j ≠ k → phName j ≠ phName k := by decide

theorem phTok_eq_mkTok (k : Fin 7) : phTok k = mkTok (phName k) := rfl

theorem seg_blocks (k : Fin 7) (s : Seg) (h : SegOk s) (hne : s ≠ Seg.ph k) :
    Blocks (phTok k) (segStr s) := by
  cases s with
  | txt t =>
    exact blocks_of_braceFree h (mkTok_get_zero (phName k))
  | ph j =>
    have hj : j ≠ k := fun hc => hne (by rw [hc])
    exact blocks_mkTok (phName_braceFree k) (phName_braceFree j)
      (phName_injective k j fun hc => hj hc.symm)
  | alien n =>
    exact blocks_mkTok (phName_braceFree k) h.1 fun hc => h.2.2 k hc.symm

theorem phTok_ne_nil (k : Fin 7) : (phTok k).isEmpty = false := by
  rw [phTok_eq_mkTok]
  rfl

theorem replFirst_nil_of_ne {p : Str} (hp : p.isEmpty = false) (r : Str) :
    replFirst p r [] = [] := by
  simp [replFirst, splitFirst, hp]

theorem splitFirst_self_append (p t : Str) : splitFirst p (p ++ t) = some ([], t) := by
  cases p with
  | nil =>
    cases t with
    | nil => rfl
    | cons c rest => simp [splitFirst, isPrefB]
  | cons a ps =>
    show splitFirst (a :: ps) (a :: (ps ++ t)) = some ([], t)
    have hpre : isPrefB (a :: ps) (a :: (ps ++ t)) = true := isPrefB_append_self (a :: ps) t
    simp only [splitFirst, hpre, if_true]
    congr 2
    show List.drop (ps.length + 1) (a :: (ps ++ t)) = t
    rw [List.drop_succ_cons]
    exact List.drop_left ps t

theorem replFirst_self_append {p r : Str} (hr : dollarFreeB r = true) (t : Str) :
    replFirst p r (p ++ t) = r ++ t := by
  simp only [replFirst, splitFirst_self_append]
  rw [getSubst_dollarFree _ _ _ r hr]
  rfl

theorem map_substSeg_of_count_zero (k : Fin 7) (r : Str) :
    ∀ L : List Seg, phCount k L = 0 → L.map (substSeg k r) = L := by
  intro L
  induction L with
  | nil => intro _; rfl
  | cons s L ih =>
    intro h
    cases s with
    | ph j =>
      simp only [phCount] at h
      have hj : ¬j = k := by
        by_contra hc
        rw [if_pos hc] at h
        omega
      rw [if_neg hj] at h
      simp only [List.map_cons, substSeg, if_neg hj]
      rw [ih (by omega)]
    | txt t =>
      simp only [phCount] at h
      simp only [List.map_cons, substSeg]
      rw [ih h]
    | alien n =>
      simp only [phCount] at h
      simp only [List.map_cons, substSeg]
      rw [ih h]

/-- Replace only the first `ph k` segment by text `r`, as the
single-occurrence `String.replace` of the source does. -/
def substFirstSeg (k : Fin 7) (r : Str) : List Seg → List Seg
  | [] => []
  | Seg.txt t :: L => Seg.txt t :: substFirstSeg k r L
  | Seg.alien n :: L => Seg.alien n :: substFirstSeg k r L
  | Seg.ph j :: L => if j = k then Seg.txt r :: L else Seg.ph j :: substFirstSeg k r L

/-- The single-substitution step on a well-formed decomposition, with no
restriction on how often the placeholder occurs: replacing the first
occurrence of the placeholder of `k` by a dollar-free `r` is the rendering
of the first-occurrence segment substitution. -/
theorem replFirst_render_first (k : Fin 7) {r : Str} (hr : dollarFreeB r = true) :
    ∀ L : List Seg, (∀ s ∈ L, SegOk s) →
      replFirst (phTok k) r (render L) = render (substFirstSeg k r L) := by
  intro L
  induction L with
  | nil => intro _; exact replFirst_nil_of_ne (phTok_ne_nil k) r
  | cons s L ih =>
    intro hok
    by_cases hs : s = Seg.ph k
    · subst hs
      show replFirst (phTok k) r (phTok k ++ render L) = _
      rw [replFirst_self_append hr]
      simp only [substFirstSeg, if_pos rfl]
      rfl
    · have hblocks : Blocks (phTok k) (segStr s) :=
        seg_blocks k s (hok s (List.mem_cons_self s L)) hs
      show replFirst (phTok k) r (segStr s ++ render L) = _
      rw [replFirst_append_of_blocks (segStr s) hblocks hr]
      rw [ih fun x hx => hok x (List.mem_cons_of_mem s hx)]
      have hsub : substFirstSeg k r (s :: L) = s :: substFirstSeg k r L := by
        cases s with
        | ph j =>
          have hj : ¬j = k := fun hc => hs (by rw [hc])
          simp [substFirstSeg, hj]
        | txt t => rfl
        | alien n => rfl
      rw [hsub]
      rfl

theorem substFirstSeg_eq_map (k : Fin 7) (r : Str) :
    ∀ L : List Seg, phCount k L ≤ 1 → substFirstSeg k r L = L.map (substSeg k r) := by
  intro L
  induction L with
  | nil => intro _; rfl
  | cons s L ih =>
    intro hcnt
    cases s with
    | txt t =>
      simp only [substFirstSeg, List.map_cons, substSeg]
      rw [ih (by simpa [phCount] using hcnt)]
    | alien n =>
      simp only [substFirstSeg, List.map_cons, substSeg]
      rw [ih (by simpa [phCount] using hcnt)]
    | ph j =>
      by_cases hj : j = k
      · subst hj
        have hc0 : phCount j L = 0 := by
          simp [phCount] at hcnt
          omega
        simp only [substFirstSeg, List.map_cons, substSeg, if_pos]
        simp only [List.cons.injEq, true_and]
        exact (map_substSeg_of_count_zero j r L hc0).symm
      · simp only [substFirstSeg, if_neg hj, List.map_cons, substSeg, if_neg hj]
        have hcnt2 : phCount k L ≤ 1 := by
          simp only [phCount, if_neg hj] at hcnt
          omega
        rw [ih hcnt2]

theorem replFirst_render (k : Fin 7) {r : Str} (hr : dollarFreeB r = true)
    (L : List Seg) (hok : ∀ s ∈ L, SegOk s) (hcnt : phCount k L ≤ 1) :
    replFirst (phTok k) r (render L) = render (L.map (substSeg k r)) := by
  rw [replFirst_render_first k hr L hok, substFirstSeg_eq_map k r L hcnt]

end Segments

section AssembleRender

theorem readPassFile_fst (f : Fragments) (k : Fin 7) :
    (readPassFile f k).1 = (f k).getD [] := by
  cases h : f k with
  | none => simp [readPassFile, h]
  | some c => simp [readPassFile, h]

/-- Replace every `ph j` segment with `j` among `ks` by the content of the
corresponding fragment (empty when missing). -/
def substKs (ks : List (Fin 7)) (f : Fragments) : Seg → Seg
  | Seg.ph j => if j ∈ ks then Seg.txt ((f j).getD []) else Seg.ph j
  | s => s

theorem map_substKs_nil (f : Fragments) :
    ∀ L : List Seg, L.map (substKs [] f) = L := by
  intro L
  have h : ∀ s ∈ L, substKs [] f s = s := by
    intro s _
    cases s with
    | ph j => simp [substKs]
    | txt t => rfl
    | alien n => rfl
  calc L.map (substKs [] f) = L.map id := List.map_congr_left h
    _ = L := List.map_id L

theorem phCount_map_substSeg {j k : Fin 7} (hjk : j ≠ k) (r : Str) :
    ∀ L : List Seg, phCount j (L.map (substSeg k r)) = phCount j L := by
  intro L
  induction L with
  | nil => rfl
  | cons s L ih =>
    cases s with
    | txt t => simpa [substSeg, phCount] using ih
    | alien n => simpa [substSeg, phCount] using ih
    | ph i =>
      by_cases hik : i = k
      · subst hik
        simp only [List.map_cons, substSeg, if_pos rfl, phCount]
        rw [ih, if_neg (fun hc => hjk hc.symm)]
        omega
      · simp only [List.map_cons, substSeg, if_neg hik, phCount]
        rw [ih]

theorem segOk_map_substSeg {k : Fin 7} {r : Str} (hr : braceFreeB r = true)
    {L : List Seg} (hok : ∀ s ∈ L, SegOk s) :
    ∀ s ∈ L.map (substSeg k r), SegOk s := by
  intro s hs
  obtain ⟨s0, hs0, rfl⟩ := List.mem_map.mp hs
  cases s0 with
  | txt t => exact hok _ hs0
  | alien n => exact hok _ hs0
  | ph j =>
    by_cases hj : j = k
    · simp only [substSeg, if_pos hj]
      exact hr
    · simp only [substSeg, if_neg hj]
      trivial

theorem substKs_substSeg (ks : List (Fin 7)) (f : Fragments) (k : Fin 7)
    (hk : k ∉ ks) (s : Seg) :
    substKs ks f (substSeg k ((f k).getD []) s) = substKs (k :: ks) f s := by
  cases s with
  | txt t => rfl
  | alien n => rfl
  | ph j =>
    by_cases hj : j = k
    · subst hj
      simp [substSeg, substKs]
    · simp only [substSeg, if_neg hj, substKs]
      simp [List.mem_cons, hj]

/-- The substitution loop over a list of keys, tracked on the rendering of a
well-formed decomposition. -/
theorem foldRepl (f : Fragments) (hbf : ∀ k, braceFreeB ((f k).getD []) = true)
    (hdf : ∀ k, dollarFreeB ((f k).getD []) = true) :
    ∀ ks : List (Fin 7), ks.Nodup →
      ∀ L : List Seg, (∀ s ∈ L, SegOk s) → (∀ k ∈ ks, phCount k L ≤ 1) →
        List.foldl (fun tm k => replFirst (phTok k) (readPassFile f k).1 tm)
            (render L) ks =
          render (L.map (substKs ks f)) := by
  intro ks
  induction ks with
  | nil =>
    intro _ L _ _
    simp only [List.foldl_nil]
    rw [map_substKs_nil f L]
  | cons k ks ih =>
    intro hnd L hok hcnt
    have hknotin : k ∉ ks := by
      have := List.nodup_cons.mp hnd
      exact this.1
    have hnd2 : ks.Nodup := (List.nodup_cons.mp hnd).2
    simp only [List.foldl_cons]
    rw [readPassFile_fst f k]
    rw [replFirst_render k (hdf k) L hok (hcnt k (List.mem_cons_self k ks))]
    rw [ih hnd2 (L.map (substSeg k ((f k).getD [])))
      (segOk_map_substSeg (hbf k) hok)
      (fun j hj => by
        have hjk : j ≠ k := fun hc => hknotin (hc ▸ hj)
        rw [phCount_map_substSeg hjk]
        exact hcnt j (List.mem_cons_of_mem k hj))]
    rw [List.map_map]
    congr 1
    exact List.map_congr_left fun s _ => substKs_substSeg ks f k hknotin s

theorem passOrder_nodup : passOrder.Nodup := by decide

theorem mem_passOrder : ∀ k : Fin 7, k ∈ passOrder := by decide

theorem assemble_fst (tpl : Str) (f : Fragments) :
    (assemble tpl f).1 =
      List.foldl (fun tm k => replFirst (phTok k) (readPassFile f k).1 tm) tpl passOrder :=
  rfl

theorem assemble_count (tpl : Str) (f : Fragments) :
    (assemble tpl f).2.1 =
      List.foldl (fun n k => n + (readPassFile f k).2.1) 0 passOrder :=
  rfl

theorem assemble_log (tpl : Str) (f : Fragments) :
    (assemble tpl f).2.2 =
      List.foldl (fun w k => w ++ (readPassFile f k).2.2) [] passOrder :=
  rfl

/-- Assembly of a rendered well-formed decomposition substitutes every
recognized placeholder (occurring at most once) pointwise; fragment contents
must be brace-free and dollar-free. -/
theorem assemble_render (L : List Seg) (f : Fragments)
    (hok : ∀ s ∈ L, SegOk s) (hcnt : ∀ k, phCount k L ≤ 1)
    (hbf : ∀ k, braceFreeB ((f k).getD []) = true)
    (hdf : ∀ k, dollarFreeB ((f k).getD []) = true) :
    (assemble (render L) f).1 = render (L.map (substKs passOrder f)) := by
  rw [assemble_fst]
  exact foldRepl f hbf hdf passOrder passOrder_nodup L hok (fun k _ => hcnt k)

/-- First-occurrence substitution over a list of keys, in order. -/
def substFirstKs : List (Fin 7) → Fragments → List Seg → List Seg
  | [], _, L => L
  | k :: ks, f, L => substFirstKs ks f (substFirstSeg k ((f k).getD []) L)

theorem segOk_substFirstSeg {k : Fin 7} {r : Str} (hr : braceFreeB r = true) :
    ∀ L : List Seg, (∀ s ∈ L, SegOk s) → ∀ s ∈ substFirstSeg k r L, SegOk s := by
  intro L
  induction L with
  | nil => intro _ s hs; simp [substFirstSeg] at hs
  | cons s0 L ih =>
    intro hok s hs
    have hhd := hok s0 (List.mem_cons_self s0 L)
    have htl : ∀ x ∈ L, SegOk x := fun x hx => hok x (List.mem_cons_of_mem s0 hx)
    cases s0 with
    | txt t =>
      simp only [substFirstSeg, List.mem_cons] at hs
      rcases hs with rfl | hs
      · exact hhd
      · exact ih htl s hs
    | alien n =>
      simp only [substFirstSeg, List.mem_cons] at hs
      rcases hs with rfl | hs
      · exact hhd
      · exact ih htl s hs
    | ph j =>
      by_cases hj : j = k
      · simp only [substFirstSeg, if_pos hj, List.mem_cons] at hs
        rcases hs with rfl | hs
        · exact hr
        · exact htl s hs
      · simp only [substFirstSeg, if_neg hj, List.mem_cons] at hs
        rcases hs with rfl | hs
        · trivial
        · exact ih htl s hs

/-- The fold of the substitution loop on a rendered decomposition, without
any restriction on how often each placeholder occurs. -/
theorem foldReplFirst (f : Fragments)
    (hbf : ∀ k, braceFreeB ((f k).getD []) = true)
    (hdf : ∀ k, dollarFreeB ((f k).getD []) = true) :
    ∀ ks : List (Fin 7), ∀ L : List Seg, (∀ s ∈ L, SegOk s) →
      List.foldl (fun tm k => replFirst (phTok k) (readPassFile f k).1 tm)
          (render L) ks =
        render (substFirstKs ks f L) := by
  intro ks
  induction ks with
  | nil => intro L _; rfl
  | cons k ks ih =>
    intro L hok
    simp only [List.foldl_cons]
    rw [readPassFile_fst f k]
    rw [replFirst_render_first k (hdf k) L hok]
    exact ih (substFirstSeg k ((f k).getD []) L) (segOk_substFirstSeg (hbf k) L hok)

/-- Assembly of a rendered well-formed decomposition with brace-free and
dollar-free fragment contents, in full generality: each pass replaces only
the first occurrence of its placeholder. -/
theorem assemble_render_first (L : List Seg) (f : Fragments)
    (hok : ∀ s ∈ L, SegOk s)
    (hbf : ∀ k, braceFreeB ((f k).getD []) = true)
    (hdf : ∀ k, dollarFreeB ((f k).getD []) = true) :
    (assemble (render L) f).1 = render (substFirstKs passOrder f L) := by
  rw [assemble_fst]
  exact foldReplFirst f hbf hdf passOrder L hok

section ScanRender

theorem takeWhile_append_all {p : Char → Bool} :
    ∀ {n : Str}, (∀ c ∈ n, p c = true) → ∀ x : Str,
      (n ++ x).takeWhile p = n ++ x.takeWhile p := by
  intro n
  induction n with
  | nil => intro _ x; rfl
  | cons a m ih =>
    intro h x
    have ha : p a = true := h a (List.mem_cons_self a m)
    simp only [List.cons_append, List.takeWhile_cons, ha, if_true]
    rw [ih (fun c hc => h c (List.mem_cons_of_mem a hc)) x]

theorem dropWhile_append_all {p : Char → Bool} :
    ∀ {n : Str}, (∀ c ∈ n, p c = true) → ∀ x : Str,
      (n ++ x).dropWhile p = x.dropWhile p := by
  intro n
  induction n with
  | nil => intro _ x; rfl
  | cons a m ih =>
    intro h x
    have ha : p a = true := h a (List.mem_cons_self a m)
    simp only [List.cons_append, List.dropWhile_cons, ha, if_true]
    exact ih (fun c hc => h c (List.mem_cons_of_mem a hc)) x

theorem braceFree_not_rb {n : Str} (h : braceFreeB n = true) :
    ∀ c ∈ n, (!(c == rb)) = true := by
  intro c hc
  have := (List.all_eq_true.mp h) c hc
  simp only [Bool.and_eq_true] at this
  exact this.2

theorem matchPH_tok {n : Str} (hbf : braceFreeB n = true) (hne : n ≠ []) (t : Str) :
    matchPH (mkTok n ++ t) = some (mkTok n, t) := by
  show matchPH (lb :: lb :: (n ++ [rb, rb] ++ t)) = _
  have hassoc : n ++ [rb, rb] ++ t = n ++ (rb :: rb :: t) := by
    simp [List.append_assoc]
  rw [hassoc]
  simp only [matchPH]
  have hcond : (lb == lb && lb == lb) = true := by simp
  rw [hcond]
  simp only [if_true]
  have htake : (n ++ (rb :: rb :: t)).takeWhile (fun c => !(c == rb)) = n := by
    rw [takeWhile_append_all (braceFree_not_rb hbf)]
    simp [List.takeWhile_cons]
  have hdrop : (n ++ (rb :: rb :: t)).dropWhile (fun c => !(c == rb)) = rb :: rb :: t := by
    rw [dropWhile_append_all (braceFree_not_rb hbf)]
    simp [List.dropWhile_cons]
  rw [htake, hdrop]
  have hni : n.isEmpty = false := by
    cases n with
    | nil => exact absurd rfl hne
    | cons a m => rfl
  rw [hni]
  simp only [Bool.false_eq_true, if_false]
  have : (rb == rb && rb == rb) = true := by simp
  rw [this]
  simp only [if_true]
  rfl

theorem matchPH_none_head {c : Char} (hc : c ≠ lb) (r : Str) : matchPH (c :: r) = none := by
  cases r with
  | nil => rfl
  | cons c2 t =>
    simp only [matchPH]
    have : (c == lb && c2 == lb) = false := by
      simp only [Bool.and_eq_false_iff]
      left
      exact beq_eq_false_iff_ne.mpr hc
    rw [this]
    simp

theorem scanPH_append_braceFree {s : Str} (h : braceFreeB s = true) (t : Str) :
    scanPH (s ++ t) = scanPH t := by
  induction s with
  | nil => rfl
  | cons c s ih =>
    have hc : c ≠ lb := by
      have := (List.all_eq_true.mp h) c (List.mem_cons_self c s)
      simp only [Bool.and_eq_true, Bool.not_eq_true', beq_eq_false_iff_ne] at this
      exact this.1
    have hs : braceFreeB s = true := by
      simp only [braceFreeB, List.all_cons, Bool.and_eq_true] at h
      exact h.2
    show runScan matchPH (c :: (s ++ t)) = scanPH t
    rw [runScan_cons matchPH_shrinks, matchPH_none_head hc]
    exact ih hs

theorem scanPH_nil_of_braceFree {s : Str} (h : braceFreeB s = true) : scanPH s = [] := by
  have := scanPH_append_braceFree h []
  simpa using this

theorem scanPH_tok_cons {n : Str} (hbf : braceFreeB n = true) (hne : n ≠ []) (t : Str) :
    scanPH (mkTok n ++ t) = mkTok n :: scanPH t := by
  show runScan matchPH (lb :: (lb :: (n ++ [rb, rb]) ++ t)) = _
  rw [runScan_cons matchPH_shrinks]
  have := matchPH_tok hbf hne t
  rw [show lb :: (lb :: (n ++ [rb, rb]) ++ t) = mkTok n ++ t from by simp [mkTok], this]
  rfl

/-- Placeholder-shaped tokens contributed by one segment. -/
def segToks : Seg → List Str
  | Seg.txt _ => []
  | Seg.ph k => [phTok k]
  | Seg.alien n => [mkTok n]

theorem phName_ne_nil : ∀ k : Fin 7, phName k ≠ [] := by decide

/-- The leftover-placeholder scan of a rendered well-formed decomposition
finds exactly the placeholder and alien tokens, in order. -/
theorem scanPH_render :
    ∀ L : List Seg, (∀ s ∈ L, SegOk s) →
      scanPH (render L) = (L.map segToks).flatten := by
  intro L
  induction L with
  | nil => intro _; rfl
  | cons s L ih =>
    intro hok
    have htail := ih fun x hx => hok x (List.mem_cons_of_mem s hx)
    cases s with
    | txt t =>
      have hbf : braceFreeB t = true := hok _ (List.mem_cons_self _ _)
      show scanPH (t ++ render L) = _
      rw [scanPH_append_braceFree hbf, htail]
      rfl
    | ph k =>
      show scanPH (mkTok (phName k) ++ render L) = _
      rw [scanPH_tok_cons (phName_braceFree k) (phName_ne_nil k), htail]
      rfl
    | alien n =>
      have hhd := hok _ (List.mem_cons_self _ _)
      show scanPH (mkTok n ++ render L) = _
      rw [scanPH_tok_cons hhd.1 hhd.2.1, htail]
      rfl

end ScanRender

section Helpers

theorem braceFreeB_append {a b : Str} (ha : braceFreeB a = true) (hb : braceFreeB b = true) :
    braceFreeB (a ++ b) = true := by
  simp only [braceFreeB, List.all_append, Bool.and_eq_true]
  exact ⟨ha, hb⟩

theorem mem_if_nil_single {c : Prop} [Decidable c] {x e : Str}
    (h : e ∈ (if c then ([] : List Str) else [x])) : e = x := by
  by_cases hc : c
  · rw [if_pos hc] at h; simp at h
  · rw [if_neg hc] at h; simpa using h

theorem mem_if_single_nil {c : Prop} [Decidable c] {x e : Str}
    (h : e ∈ (if c then [x] else ([] : List Str))) : e = x := by
  by_cases hc : c
  · rw [if_pos hc] at h; simpa using h
  · rw [if_neg hc] at h; simp at h

theorem ne_of_head {a b : Str} (h : a.head? ≠ b.head?) : a ≠ b :=
  fun hab => h (by rw [hab])

end Helpers

/-- The windowspe fragment set to the two-character content dollar-ampersand,
which GetSubstitution expands to the matched placeholder. -/
def c2badFr : Fragments := fun k => if k = 0 then some ('$' :: '&' :: []) else none

/-- Counterexample to claim C2 as stated: with the template being exactly the
WINDOWSPE placeholder and its fragment content the two characters
dollar-ampersand, the first (and only) occurrence splits the template as
before = after = empty, yet the assembled output is the matched placeholder
itself — `String.prototype.replace` expanded the dollar unit — and not the
fragment content spliced verbatim. -/
theorem c2_counterexample :
    splitFirst (phTok 0) (phTok 0) = some ([], []) ∧
    (assemble (phTok 0) c2badFr).1 = phTok 0 ∧
    phTok 0 ≠ ([] : Str) ++ ('$' :: '&' :: []) ++ ([] : Str) := by
  decide

/-- Claim C2 (amended): the assembler processes the seven
placeholder-to-pass mapping entries in the fixed declared order (the
`passOrder` fold), uses the fragment content (or the empty string when the
pass file is absent), and `replFirst` — the JS single-occurrence
`String.replace` — rewrites exactly the first (leftmost) occurrence of the
placeholder to the fragment content passed through ECMAScript
GetSubstitution, leaving any later occurrences unsubstituted; for fragment
content without a dollar character the substitution is the content
verbatim. -/
theorem c2_assemble_order_and_first_occurrence :
    (∀ tpl f, (assemble tpl f).1 =
        List.foldl (fun tm k => replFirst (phTok k) (readPassFile f k).1 tm) tpl passOrder) ∧
    (∀ f k, (readPassFile f k).1 = (f k).getD []) ∧
    (∀ pat rep s : Str,
      (containsSub s pat = false → replFirst pat rep s = s) ∧
      (containsSub s pat = true →
        ∃ b a, s = b ++ pat ++ a ∧ replFirst pat rep s = b ++ getSubst pat b a rep ++ a ∧
          ∀ b2 a2, s = b2 ++ pat ++ a2 → b.length ≤ b2.length)) ∧
    (∀ m b a rep : Str, dollarFreeB rep = true → getSubst m b a rep = rep) :=
  ⟨assemble_fst, readPassFile_fst,
    fun pat rep s =>
      ⟨replFirst_of_not_contains pat rep s, replFirst_of_contains pat rep s⟩,
    fun m b a rep h => getSubst_dollarFree m b a rep h⟩

/-- Witness for C2: on a template consisting of the WINDOWSPE placeholder
twice and a dollar-free fragment, replacement rewrites the first copy to the
fragment content and keeps the second. -/
theorem c2_witness :
    ∃ b a, phTok 0 ++ phTok 0 = b ++ phTok 0 ++ a ∧
      replFirst (phTok 0) ['a'] (phTok 0 ++ phTok 0) =
        b ++ getSubst (phTok 0) b a ['a'] ++ a ∧
      ∀ b2 a2, phTok 0 ++ phTok 0 = b2 ++ phTok 0 ++ a2 → b.length ≤ b2.length :=
  (c2_assemble_order_and_first_occurrence.2.2.1 (phTok 0) ['a'] (phTok 0 ++ phTok 0)).2
    (by decide)

/-- Claim C3: for every input document the validator returns `isValid = true`
exactly when its error list is empty; warnings and suggestions never affect
validity. -/
theorem c3_isValid_iff_no_errors (inp : Option Str) :
    (validateAutounattendXml inp).isValid = true ↔
      (validateAutounattendXml inp).errors = [] := by
  cases inp with
  | none => simp [validateAutounattendXml]
  | some content =>
    simp only [validateAutounattendXml]
    constructor
    · intro h
      simp only [Bool.not_eq_true', decide_eq_false_iff_not, Nat.not_lt, Nat.le_zero,
        List.length_eq_zero] at h
      exact h
    · intro h
      simp [h]

section C4Support

theorem phErrMsg_head (phs : List Str) : (phErrMsg phs).head? = some 'U' := rfl

theorem basicErrs_members {content : Str} {e : Str}
    (h : e ∈ ((if containsSub content declTok then [] else [declErrMsg]) ++
      (if containsSub content rootTok then [] else [rootErrMsg]) ++
      (if containsSub content closeTok then [] else [closeErrMsg]))) :
    e = declErrMsg ∨ e = rootErrMsg ∨ e = closeErrMsg := by
  rcases List.mem_append.mp h with h1 | h1
  · rcases List.mem_append.mp h1 with h2 | h2
    · exact Or.inl (mem_if_nil_single h2)
    · exact Or.inr (Or.inl (mem_if_nil_single h2))
  · exact Or.inr (Or.inr (mem_if_nil_single h1))

theorem basicErrs_not_phErr {content : Str} {phs : List Str} :
    phErrMsg phs ∉ ((if containsSub content declTok then [] else [declErrMsg]) ++
      (if containsSub content rootTok then [] else [rootErrMsg]) ++
      (if containsSub content closeTok then [] else [closeErrMsg])) := by
  intro h
  rcases basicErrs_members h with h1 | h1 | h1
  · refine ne_of_head ?_ h1
    rw [phErrMsg_head]
    decide
  · refine ne_of_head ?_ h1
    rw [phErrMsg_head]
    decide
  · refine ne_of_head ?_ h1
    rw [phErrMsg_head]
    decide

end C4Support

theorem validate_some_errors (content : Str) :
    (validateAutounattendXml (some content)).errors = (validateBasicStructure content).1 := rfl

theorem validate_some_isValid (content : Str) :
    (validateAutounattendXml (some content)).isValid =
      !(decide (0 < (validateBasicStructure content).1.length)) := rfl

theorem validate_some_warnings (content : Str) :
    (validateAutounattendXml (some content)).warnings =
      (validateBasicStructure content).2 ++ validateWindowsComponents content ++
        validatePasswordSecurity content := rfl

theorem validateBasicStructure_fst (content : Str) :
    (validateBasicStructure content).1 =
      ((if containsSub content declTok then [] else [declErrMsg]) ++
        (if containsSub content rootTok then [] else [rootErrMsg]) ++
        (if containsSub content closeTok then [] else [closeErrMsg])) ++
      (if (scanPH content).isEmpty then [] else [phErrMsg (scanPH content)]) := rfl

/-- Claim C4: whenever placeholder-shaped tokens remain in the document, the
validator appends exactly one leftover-placeholder error — listing all
matches joined by a comma — and the result is invalid; when none remain, no
leftover-placeholder error appears. -/
theorem c4_leftover_placeholder_error (content : Str) :
    (scanPH content ≠ [] →
      (validateAutounattendXml (some content)).errors.count (phErrMsg (scanPH content)) = 1 ∧
      (validateAutounattendXml (some content)).isValid = false) ∧
    (scanPH content = [] →
      ∀ e ∈ (validateAutounattendXml (some content)).errors, isPrefB phErrPre e = false) := by
  constructor
  · intro hne
    have hie : (scanPH content).isEmpty = false := by
      cases h : scanPH content with
      | nil => exact absurd h hne
      | cons a l => rfl
    constructor
    · rw [validate_some_errors, validateBasicStructure_fst, hie]
      simp only [Bool.false_eq_true, if_false]
      rw [List.count_append]
      rw [List.count_eq_zero.mpr basicErrs_not_phErr]
      simp
    · rw [validate_some_isValid, validateBasicStructure_fst, hie]
      simp
  · intro hnil e he
    rw [validate_some_errors, validateBasicStructure_fst, hnil] at he
    simp only [List.isEmpty_nil, if_true, List.append_nil] at he
    rcases basicErrs_members he with h1 | h1 | h1 <;> subst h1 <;> decide

/-- Witness for C4: a document that is just an unrecognized FOO token gets
exactly one leftover error and fails validation. -/
theorem c4_witness :
    (validateAutounattendXml (some (mkTok ('F' :: 'O' :: 'O' :: [])))).errors.count
        (phErrMsg (scanPH (mkTok ('F' :: 'O' :: 'O' :: [])))) = 1 ∧
    (validateAutounattendXml (some (mkTok ('F' :: 'O' :: 'O' :: [])))).isValid = false :=
  (c4_leftover_placeholder_error (mkTok ('F' :: 'O' :: 'O' :: []))).1 (by decide)

section C5Support

theorem validateBasicStructure_snd (content : Str) :
    (validateBasicStructure content).2 =
      (if (openTags content).length == (closeTags content).length then []
       else [tagWarnMsg]) := rfl

theorem wc_members {content : Str} {e : Str} (h : e ∈ validateWindowsComponents content) :
    e = reqCompMsg setupComp ∨ e = reqCompMsg shellSetupComp ∨
    e = depCompMsg luaComp ∨ e = depCompMsg oobeComp ∨ e = archWarnMsg := by
  simp only [validateWindowsComponents, List.append_assoc, List.mem_append] at h
  rcases h with h | h | h | h | h
  · exact Or.inl (mem_if_nil_single h)
  · exact Or.inr (Or.inl (mem_if_nil_single h))
  · exact Or.inr (Or.inr (Or.inl (mem_if_single_nil h)))
  · exact Or.inr (Or.inr (Or.inr (Or.inl (mem_if_single_nil h))))
  · exact Or.inr (Or.inr (Or.inr (Or.inr (mem_if_single_nil h))))

theorem pt_mem_pwPerMatch_iff (m : Str) :
    ptWarnMsg ∈ pwPerMatch m ↔ isBase64 (stripTags m) = false := by
  simp only [pwPerMatch, List.mem_append]
  constructor
  · intro h
    rcases h with h | h
    · by_cases hb : isBase64 (stripTags m) = true
      · rw [if_pos hb] at h; simp at h
      · exact Bool.not_eq_true _ ▸ (by simpa using hb)
    · have := mem_if_single_nil h
      exact absurd this (by decide)
  · intro h
    left
    rw [if_neg (by simp [h])]
    simp

theorem weak_mem_pwPerMatch_iff (m : Str) :
    weakWarnMsg ∈ pwPerMatch m ↔ weakAny (decodedOf (stripTags m)) = true := by
  simp only [pwPerMatch, List.mem_append]
  constructor
  · intro h
    rcases h with h | h
    · have := mem_if_nil_single h
      exact absurd this (by decide)
    · by_cases hw : weakAny (decodedOf (stripTags m)) = true
      · exact hw
      · rw [if_neg hw] at h; simp at h
  · intro h
    right
    rw [if_pos h]
    simp

theorem mem_pwWarnings_iff {w : Str} (hal : w ≠ alWarnMsg) (content : Str) :
    w ∈ validatePasswordSecurity content ↔ ∃ m ∈ pwMatches content, w ∈ pwPerMatch m := by
  simp only [validatePasswordSecurity, List.mem_append]
  constructor
  · intro h
    rcases h with h | h
    · obtain ⟨l, hl, hw⟩ := List.mem_flatten.mp h
      obtain ⟨m, hm, rfl⟩ := List.mem_map.mp hl
      exact ⟨m, hm, hw⟩
    · by_cases hc : (containsSub content autoLogonTag && !containsSub content pwOpenCS) = true
      · rw [if_pos hc] at h
        exact absurd (by simpa using h) hal
      · rw [if_neg hc] at h; simp at h
  · intro ⟨m, hm, hw⟩
    left
    exact List.mem_flatten.mpr ⟨pwPerMatch m, List.mem_map.mpr ⟨m, hm, rfl⟩, hw⟩

theorem pt_mem_validate_iff (content : Str) :
    ptWarnMsg ∈ (validateAutounattendXml (some content)).warnings ↔
      ∃ m ∈ pwMatches content, isBase64 (stripTags m) = false := by
  rw [validate_some_warnings]
  simp only [List.mem_append]
  constructor
  · intro h
    rcases h with (h | h) | h
    · rw [validateBasicStructure_snd] at h
      exact absurd (mem_if_nil_single h) (by decide)
    · rcases wc_members h with h1 | h1 | h1 | h1 | h1 <;> exact absurd h1 (by decide)
    · obtain ⟨m, hm, hw⟩ := (mem_pwWarnings_iff (by decide) content).mp h
      exact ⟨m, hm, (pt_mem_pwPerMatch_iff m).mp hw⟩
  · intro ⟨m, hm, hb⟩
    right
    exact (mem_pwWarnings_iff (by decide) content).mpr
      ⟨m, hm, (pt_mem_pwPerMatch_iff m).mpr hb⟩

theorem weak_mem_validate_iff (content : Str) :
    weakWarnMsg ∈ (validateAutounattendXml (some content)).warnings ↔
      ∃ m ∈ pwMatches content, weakAny (decodedOf (stripTags m)) = true := by
  rw [validate_some_warnings]
  simp only [List.mem_append]
  constructor
  · intro h
    rcases h with (h | h) | h
    · rw [validateBasicStructure_snd] at h
      exact absurd (mem_if_nil_single h) (by decide)
    · rcases wc_members h with h1 | h1 | h1 | h1 | h1 <;> exact absurd h1 (by decide)
    · obtain ⟨m, hm, hw⟩ := (mem_pwWarnings_iff (by decide) content).mp h
      exact ⟨m, hm, (weak_mem_pwPerMatch_iff m).mp hw⟩
  · intro ⟨m, hm, hb⟩
    right
    exact (mem_pwWarnings_iff (by decide) content).mpr
      ⟨m, hm, (weak_mem_pwPerMatch_iff m).mpr hb⟩

end C5Support

/-- The two concrete password documents of the specification. -/
def pwDocB64 : Str := "<Password>Y2xvdWRpdA==</Password>".toList

def pwDocAdmin : Str := "<Password>admin</Password>".toList

/-- Claim C5: every `<Password>...</Password>` match is tested for a Base64
round trip — a failed round trip yields the plaintext warning — and the
decoded value (on a round trip) or the raw value (otherwise) is checked
case-insensitively against the weak-password list.  In particular the
Base64 document gets no plaintext warning, and the `admin` document gets
both the plaintext and the weak-password warning. -/
theorem c5_password_inspection :
    (∀ m : Str,
      (ptWarnMsg ∈ pwPerMatch m ↔ isBase64 (stripTags m) = false) ∧
      (weakWarnMsg ∈ pwPerMatch m ↔ weakAny (decodedOf (stripTags m)) = true)) ∧
    (∀ content : Str,
      (ptWarnMsg ∈ (validateAutounattendXml (some content)).warnings ↔
        ∃ m ∈ pwMatches content, isBase64 (stripTags m) = false) ∧
      (weakWarnMsg ∈ (validateAutounattendXml (some content)).warnings ↔
        ∃ m ∈ pwMatches content, weakAny (decodedOf (stripTags m)) = true)) ∧
    ptWarnMsg ∉ (validateAutounattendXml (some pwDocB64)).warnings ∧
    (ptWarnMsg ∈ (validateAutounattendXml (some pwDocAdmin)).warnings ∧
      weakWarnMsg ∈ (validateAutounattendXml (some pwDocAdmin)).warnings) :=
  ⟨fun m => ⟨pt_mem_pwPerMatch_iff m, weak_mem_pwPerMatch_iff m⟩,
   fun content => ⟨pt_mem_validate_iff content, weak_mem_validate_iff content⟩,
   by decide,
   by decide, by decide⟩

/-- Claim C6: when the template file is missing the build fails, the error
message references the template path, and the output file is left exactly as
it was. -/
theorem c6_missing_template (fs : FSState) (t1 t2 : Nat) (h : fs.template = none) :
    (build fs t1 t2).1.success = false ∧
    containsSub ((build fs t1 t2).1.error.getD []) templatePathS = true ∧
    (build fs t1 t2).2.1.outFile = fs.outFile := by
  refine ⟨?_, ?_, ?_⟩
  · simp [build, h]
  · simp only [build, h]
    show containsSub tplMissingMsg templatePathS = true
    decide
  · simp [build, h]

/-- Witness for C6: a file system with no template and a pre-existing output
file keeps that output file after a failed build. -/
theorem c6_witness :
    (build ⟨none, fun _ => none, some ['x']⟩ 0 5).1.success = false ∧
    containsSub ((build ⟨none, fun _ => none, some ['x']⟩ 0 5).1.error.getD [])
      templatePathS = true ∧
    (build ⟨none, fun _ => none, some ['x']⟩ 0 5).2.1.outFile = some ['x'] :=
  c6_missing_template ⟨none, fun _ => none, some ['x']⟩ 0 5 rfl

/-- Claim C7: with the template present and exactly one pass file absent, the
build still succeeds, substitutes the empty string for the absent fragment
(the output equals the one produced with an explicitly empty fragment), logs
a missing-file warning for it, and counts only the six fragments that were
read in `passesProcessed`. -/
theorem c7_single_missing_fragment (fs : FSState) (t1 t2 : Nat) (tpl : Str) (k : Fin 7)
    (htpl : fs.template = some tpl)
    (habs : ∀ j, fs.frags j = none ↔ j = k) :
    (build fs t1 t2).1.success = true ∧
    (build fs t1 t2).1.buildStats.passesProcessed = 6 ∧
    missingPassMsg k ∈ (build fs t1 t2).2.2 ∧
    (build fs t1 t2).2.1.outFile =
      some (assemble tpl (fun j => if j = k then some [] else fs.frags j)).1 := by
  have hcnt : ∀ j, (readPassFile fs.frags j).2.1 = if j = k then 0 else 1 := by
    intro j
    by_cases hjk : j = k
    · subst hjk
      have : fs.frags j = none := (habs j).mpr rfl
      simp [readPassFile, this]
    · have hne : fs.frags j ≠ none := fun hc => hjk ((habs j).mp hc)
      obtain ⟨c, hc⟩ := Option.ne_none_iff_exists'.mp hne
      simp [readPassFile, hc, hjk]
  have hwarn : ∀ j, (readPassFile fs.frags j).2.2 =
      if j = k then [missingPassMsg k] else [] := by
    intro j
    by_cases hjk : j = k
    · subst hjk
      have : fs.frags j = none := (habs j).mpr rfl
      simp [readPassFile, this]
    · have hne : fs.frags j ≠ none := fun hc => hjk ((habs j).mp hc)
      obtain ⟨c, hc⟩ := Option.ne_none_iff_exists'.mp hne
      simp [readPassFile, hc, hjk]
  have hfst : ∀ j, (readPassFile fs.frags j).1 =
      (readPassFile (fun j => if j = k then some [] else fs.frags j) j).1 := by
    intro j
    by_cases hjk : j = k
    · subst hjk
      have : fs.frags j = none := (habs j).mpr rfl
      simp [readPassFile, this]
    · have hne : fs.frags j ≠ none := fun hc => hjk ((habs j).mp hc)
      obtain ⟨c, hc⟩ := Option.ne_none_iff_exists'.mp hne
      simp [readPassFile, hc, hjk]
  refine ⟨?_, ?_, ?_, ?_⟩
  · simp only [build, htpl]
  · simp only [build, htpl]
    show (assemble tpl fs.frags).2.1 = 6
    rw [assemble_count]
    simp only [passOrder, List.foldl_cons, List.foldl_nil, hcnt]
    fin_cases k <;> simp
  · simp only [build, htpl]
    show missingPassMsg k ∈ (assemble tpl fs.frags).2.2
    rw [assemble_log]
    simp only [passOrder, List.foldl_cons, List.foldl_nil, hwarn]
    fin_cases k <;> simp
  · simp only [build, htpl]
    show some (assemble tpl fs.frags).1 = _
    congr 1
    rw [assemble_fst, assemble_fst]
    exact List.foldl_ext _ _ tpl fun tm j _ => by rw [hfst j]

/-- Witness for C7: the WINDOWSPE fragment missing and the other six present
and empty. -/
theorem c7_witness :
    (build ⟨some (phTok 0), fun j => if j = 0 then none else some ['a'], none⟩ 0 1).1.success =
        true ∧
    (build ⟨some (phTok 0), fun j => if j = 0 then none else some ['a'],
        none⟩ 0 1).1.buildStats.passesProcessed = 6 ∧
    missingPassMsg 0 ∈
      (build ⟨some (phTok 0), fun j => if j = 0 then none else some ['a'], none⟩ 0 1).2.2 ∧
    (build ⟨some (phTok 0), fun j => if j = 0 then none else some ['a'], none⟩ 0 1).2.1.outFile =
      some (assemble (phTok 0)
        (fun j => if j = 0 then some []
          else if j = 0 then none else some ['a'])).1 :=
  c7_single_missing_fragment
    ⟨some (phTok 0), fun j => if j = 0 then none else some ['a'], none⟩ 0 1 (phTok 0) 0 rfl
    (by decide)

/-- Claim C8: re-running the build on the file system left by a first run
(inputs unchanged) is deterministic — success, output file content,
validation outcome, warnings, `passesProcessed` and `fileSize` all coincide
with the first run, whatever the clock ticks are. -/
theorem c8_idempotent_rebuild (fs : FSState) (t1 t2 t3 t4 : Nat) :
    (build (build fs t1 t2).2.1 t3 t4).1.success = (build fs t1 t2).1.success ∧
    (build (build fs t1 t2).2.1 t3 t4).2.1.outFile = (build fs t1 t2).2.1.outFile ∧
    (build (build fs t1 t2).2.1 t3 t4).1.isValid = (build fs t1 t2).1.isValid ∧
    (build (build fs t1 t2).2.1 t3 t4).1.warnings = (build fs t1 t2).1.warnings ∧
    (build (build fs t1 t2).2.1 t3 t4).1.buildStats.passesProcessed =
      (build fs t1 t2).1.buildStats.passesProcessed ∧
    (build (build fs t1 t2).2.1 t3 t4).1.buildStats.fileSize =
      (build fs t1 t2).1.buildStats.fileSize := by
  cases h : fs.template with
  | none => simp [build, h]
  | some tpl => simp [build, h]

def pwDocUser : Str := "<Password>user</Password>".toList

/-- Claim C10: a weak plaintext password can escape both warnings — `user`
is four valid base64 characters, so the raw value round-trips, the plaintext
check passes, and the weak-password check runs on the decoded bytes (which
contain no weak word) rather than on the raw value, which is itself weak. -/
theorem c10_weak_password_escape :
    isBase64 ('u' :: 's' :: 'e' :: 'r' :: []) = true ∧
    weakAny ('u' :: 's' :: 'e' :: 'r' :: []) = true ∧
    weakAny (decodedOf ('u' :: 's' :: 'e' :: 'r' :: [])) = false ∧
    ptWarnMsg ∉ (validateAutounattendXml (some pwDocUser)).warnings ∧
    weakWarnMsg ∉ (validateAutounattendXml (some pwDocUser)).warnings := by
  refine ⟨by decide, by decide, by decide, ?_, ?_⟩ <;> decide

section RenderFacts

theorem render_braceFree :
    ∀ L : List Seg, (∀ s ∈ L, braceFreeB (segStr s) = true) →
      braceFreeB (render L) = true := by
  intro L
  induction L with
  | nil => intro _; rfl
  | cons s L ih =>
    intro h
    show braceFreeB (segStr s ++ render L) = true
    exact braceFreeB_append (h s (List.mem_cons_self s L))
      (ih fun x hx => h x (List.mem_cons_of_mem s hx))

theorem containsSub_render_of_mem {L : List Seg} {seg : Seg} {pat : Str}
    (hm : seg ∈ L) (h : containsSub (segStr seg) pat = true) :
    containsSub (render L) pat = true := by
  obtain ⟨l1, l2, rfl⟩ := List.append_of_mem hm
  rw [render_append]
  apply containsSub_append_right
  show containsSub (segStr seg ++ render l2) pat = true
  exact containsSub_append_left _ _ _ h

theorem segOk_map_substKs {f : Fragments} (hbf : ∀ k, braceFreeB ((f k).getD []) = true)
    {L : List Seg} (hok : ∀ s ∈ L, SegOk s) (ks : List (Fin 7)) :
    ∀ s ∈ L.map (substKs ks f), SegOk s := by
  intro s hs
  obtain ⟨s0, hs0, rfl⟩ := List.mem_map.mp hs
  cases s0 with
  | txt t => exact hok _ hs0
  | alien n => exact hok _ hs0
  | ph j =>
    by_cases hj : j ∈ ks
    · simp only [substKs, if_pos hj]
      exact hbf j
    · simp only [substKs, if_neg hj]
      trivial

theorem substKs_txt (ks : List (Fin 7)) (f : Fragments) (t : Str) :
    substKs ks f (Seg.txt t) = Seg.txt t := rfl

theorem substKs_alien (ks : List (Fin 7)) (f : Fragments) (n : Str) :
    substKs ks f (Seg.alien n) = Seg.alien n := rfl

theorem segToks_substKs_sub (ks : List (Fin 7)) (f : Fragments) (s : Seg) :
    ∀ m, m ∈ segToks (substKs ks f s) → m ∈ segToks s := by
  intro m hm
  cases s with
  | txt t => simpa [substKs] using hm
  | alien n => simpa [substKs] using hm
  | ph j =>
    by_cases hj : j ∈ ks
    · simp only [substKs, if_pos hj, segToks] at hm
      simp at hm
    · simpa only [substKs, if_neg hj] using hm

end RenderFacts

/-- The concrete inputs refuting claim C9 as stated: the template is exactly
the WINDOWSPE placeholder and the windowspe fragment is an alien token. -/
def c9Tpl : Str := phTok 0

def c9Fr : Fragments := fun k => if k = 0 then some (mkTok ['X']) else none

/-- Counterexample to claim C9 as stated: assembly introduces a
placeholder-shaped token that is not present in the template, because a
fragment may itself contain one. -/
theorem c9_counterexample :
    mkTok ['X'] ∈ scanPH (assemble c9Tpl c9Fr).1 ∧
    containsSub c9Tpl (mkTok ['X']) = false ∧
    mkTok ['X'] ∉ scanPH c9Tpl := by decide

theorem alien_mem_substFirstSeg {n : Str} (k : Fin 7) (r : Str) :
    ∀ L : List Seg, Seg.alien n ∈ L → Seg.alien n ∈ substFirstSeg k r L := by
  intro L
  induction L with
  | nil => intro h; simp at h
  | cons s0 L ih =>
    intro h
    cases s0 with
    | txt t =>
      simp only [List.mem_cons] at h
      rcases h with h | h
      · exact absurd h (by simp)
      · exact List.mem_cons_of_mem _ (ih h)
    | alien n0 =>
      simp only [List.mem_cons] at h
      rcases h with h | h
      · rw [h]
        exact List.mem_cons_self _ _
      · exact List.mem_cons_of_mem _ (ih h)
    | ph j =>
      have hL : Seg.alien n ∈ L := by
        simp only [List.mem_cons] at h
        rcases h with h | h
        · exact absurd h (by simp)
        · exact h
      by_cases hj : j = k
      · simp only [substFirstSeg, if_pos hj]
        exact List.mem_cons_of_mem _ hL
      · simp only [substFirstSeg, if_neg hj]
        exact List.mem_cons_of_mem _ (ih hL)

theorem alien_mem_substFirstKs {n : Str} (f : Fragments) :
    ∀ ks : List (Fin 7), ∀ L : List Seg,
      Seg.alien n ∈ L → Seg.alien n ∈ substFirstKs ks f L := by
  intro ks
  induction ks with
  | nil => intro L h; exact h
  | cons k ks ih =>
    intro L h
    exact ih _ (alien_mem_substFirstSeg k ((f k).getD []) L h)

theorem toks_substFirstSeg_sub (k : Fin 7) (r : Str) :
    ∀ L : List Seg, ∀ m,
      m ∈ ((substFirstSeg k r L).map segToks).flatten →
        m ∈ (L.map segToks).flatten := by
  intro L
  induction L with
  | nil => intro m h; simp [substFirstSeg] at h
  | cons s0 L ih =>
    intro m h
    cases s0 with
    | txt t =>
      simp only [substFirstSeg, List.map_cons, List.flatten_cons, segToks,
        List.nil_append] at h ⊢
      exact ih m h
    | alien n0 =>
      simp only [substFirstSeg, List.map_cons, List.flatten_cons,
        List.mem_append] at h ⊢
      rcases h with h | h
      · exact Or.inl h
      · exact Or.inr (ih m h)
    | ph j =>
      by_cases hj : j = k
      · simp only [substFirstSeg, if_pos hj, List.map_cons, List.flatten_cons, segToks,
          List.nil_append, List.mem_append] at h ⊢
        exact Or.inr h
      · simp only [substFirstSeg, if_neg hj, List.map_cons, List.flatten_cons,
          List.mem_append] at h ⊢
        rcases h with h | h
        · exact Or.inl h
        · exact Or.inr (ih m h)

theorem toks_substFirstKs_sub (f : Fragments) :
    ∀ ks : List (Fin 7), ∀ L : List Seg, ∀ m,
      m ∈ ((substFirstKs ks f L).map segToks).flatten →
        m ∈ (L.map segToks).flatten := by
  intro ks
  induction ks with
  | nil => intro L m h; exact h
  | cons k ks ih =>
    intro L m h
    exact toks_substFirstSeg_sub k ((f k).getD []) L m (ih _ m h)

theorem segOk_substFirstKs {f : Fragments}
    (hbf : ∀ k, braceFreeB ((f k).getD []) = true) :
    ∀ ks : List (Fin 7), ∀ L : List Seg, (∀ s ∈ L, SegOk s) →
      ∀ s ∈ substFirstKs ks f L, SegOk s := by
  intro ks
  induction ks with
  | nil => intro L hok; exact hok
  | cons k ks ih =>
    intro L hok
    exact ih _ (segOk_substFirstSeg (hbf k) L hok)

/-- Claim C9 (amended): when the template decomposes into brace-free text,
recognized placeholders (occurring any number of times) and unrecognized
placeholder-shaped tokens, and every fragment content is brace-free and
dollar-free, then assembly leaves every unrecognized token in place and
every placeholder-shaped token of the output already occurs among the
tokens of the template. -/
theorem c9_amended_frame (L : List Seg) (f : Fragments)
    (hseg : ∀ s ∈ L, SegOk s)
    (hbf : ∀ k, braceFreeB ((f k).getD []) = true)
    (hdf : ∀ k, dollarFreeB ((f k).getD []) = true) :
    (∀ n, Seg.alien n ∈ L → containsSub (assemble (render L) f).1 (mkTok n) = true) ∧
    (∀ m, m ∈ scanPH (assemble (render L) f).1 → m ∈ scanPH (render L)) := by
  have hout : (assemble (render L) f).1 = render (substFirstKs passOrder f L) :=
    assemble_render_first L f hseg hbf hdf
  constructor
  · intro n hn
    rw [hout]
    exact containsSub_render_of_mem (alien_mem_substFirstKs f passOrder L hn)
      (containsSub_self _)
  · intro m hm
    rw [hout, scanPH_render _ (segOk_substFirstKs hbf passOrder L hseg)] at hm
    rw [scanPH_render L hseg]
    exact toks_substFirstKs_sub f passOrder L m hm

/-- Witness for the amended C9: a template made of an alien Z token followed
by the WINDOWSPE placeholder twice keeps the Z token in the output. -/
theorem c9_amended_frame_witness :
    containsSub (assemble (render [Seg.alien ['Z'], Seg.ph 0, Seg.ph 0])
        (fun _ => some ['a'])).1 (mkTok ['Z']) = true := by
  have h := c9_amended_frame [Seg.alien ['Z'], Seg.ph 0, Seg.ph 0] (fun _ => some ['a'])
    (by
      intro s hs
      simp only [List.mem_cons, List.not_mem_nil, or_false] at hs
      rcases hs with rfl | rfl | rfl
      · show braceFreeB ['Z'] = true ∧ _
        refine ⟨by decide, by decide, by decide⟩
      · trivial
      · trivial)
    (by decide)
    (by decide)
  exact h.1 ['Z'] (by simp)

/-- The concrete inputs refuting claim C1 as stated: a well-formed template
with all seven placeholders exactly once, all seven fragments present and
non-empty, but the windowspe fragment contains a placeholder-shaped token. -/
def c1badTpl : Str :=
  declTok ++ rootTok ++ phTok 0 ++ phTok 1 ++ phTok 2 ++ phTok 3 ++ phTok 4 ++
    phTok 5 ++ phTok 6 ++ closeTok

def c1badFr : Fragments := fun k => if k = 0 then some (mkTok ['X']) else some ['a']

/-- Counterexample to claim C1 as stated: the hypotheses hold (well-formed
template, each placeholder exactly once, all fragments present and
non-empty) yet the output keeps a placeholder-shaped token, the validator
reports an error, and the result is invalid. -/
theorem c1_counterexample :
    (containsSub c1badTpl declTok = true ∧ containsSub c1badTpl rootTok = true ∧
      containsSub c1badTpl closeTok = true ∧
      (∀ k : Fin 7, countOcc (phTok k) c1badTpl = 1) ∧
      (∀ k : Fin 7, (c1badFr k).isSome = true ∧ (c1badFr k).getD [] ≠ [])) ∧
    scanPH (assemble c1badTpl c1badFr).1 ≠ [] ∧
    (validateAutounattendXml (some (assemble c1badTpl c1badFr).1)).isValid = false ∧
    (validateAutounattendXml (some (assemble c1badTpl c1badFr).1)).errors ≠ [] := by
  decide

/-- Claim C1 (amended): for a template decomposing into brace-free text and
the seven recognized placeholders exactly once each (no other
placeholder-shaped material), whose text carries the XML declaration and the
unattend root-open and root-close markers, and seven present, non-empty,
brace-free and dollar-free fragments, the build succeeds, the output has no
placeholder-shaped token left, `passesProcessed` is 7, and validation
returns `isValid = true` with no errors. -/
theorem c1_amended_wellformed_build (L : List Seg) (f : Fragments) (fsOut : Option Str)
    (t1 t2 : Nat)
    (hseg : ∀ s ∈ L, SegOk s)
    (hnoalien : ∀ n, Seg.alien n ∉ L)
    (hcount : ∀ k, phCount k L = 1)
    (hfr : ∀ k, (f k).isSome = true ∧ (f k).getD [] ≠ [] ∧
      braceFreeB ((f k).getD []) = true ∧ dollarFreeB ((f k).getD []) = true)
    (hdecl : ∃ s, Seg.txt s ∈ L ∧ containsSub s declTok = true)
    (hroot : ∃ s, Seg.txt s ∈ L ∧ containsSub s rootTok = true)
    (hclose : ∃ s, Seg.txt s ∈ L ∧ containsSub s closeTok = true) :
    scanPH (assemble (render L) f).1 = [] ∧
    (assemble (render L) f).2.1 = 7 ∧
    (build ⟨some (render L), f, fsOut⟩ t1 t2).1.success = true ∧
    (validateAutounattendXml (some (assemble (render L) f).1)).isValid = true ∧
    (validateAutounattendXml (some (assemble (render L) f).1)).errors = [] := by
  have hbf : ∀ k, braceFreeB ((f k).getD []) = true := fun k => (hfr k).2.2.1
  have hdf : ∀ k, dollarFreeB ((f k).getD []) = true := fun k => (hfr k).2.2.2
  have hout : (assemble (render L) f).1 = render (L.map (substKs passOrder f)) :=
    assemble_render L f hseg (fun k => by rw [hcount k]) hbf hdf
  have hall : ∀ s ∈ L.map (substKs passOrder f), braceFreeB (segStr s) = true := by
    intro s hs
    obtain ⟨s0, hs0, rfl⟩ := List.mem_map.mp hs
    cases s0 with
    | txt t => exact hseg _ hs0
    | alien n => exact absurd hs0 (hnoalien n)
    | ph j =>
      simp only [substKs, if_pos (mem_passOrder j)]
      exact hbf j
  have hscan : scanPH (assemble (render L) f).1 = [] := by
    rw [hout]
    exact scanPH_nil_of_braceFree (render_braceFree _ hall)
  have hcontains : ∀ pat : Str, (∃ s, Seg.txt s ∈ L ∧ containsSub s pat = true) →
      containsSub (assemble (render L) f).1 pat = true := by
    rintro pat ⟨s, hsL, hc⟩
    rw [hout]
    have hmem : Seg.txt s ∈ L.map (substKs passOrder f) :=
      List.mem_map.mpr ⟨Seg.txt s, hsL, rfl⟩
    exact containsSub_render_of_mem hmem hc
  have herr : (validateBasicStructure (assemble (render L) f).1).1 = [] := by
    rw [validateBasicStructure_fst]
    rw [hcontains declTok hdecl, hcontains rootTok hroot, hcontains closeTok hclose, hscan]
    simp
  refine ⟨hscan, ?_, rfl, ?_, ?_⟩
  · have h1 : ∀ j, (readPassFile f j).2.1 = 1 := by
      intro j
      obtain ⟨c, hc⟩ := Option.isSome_iff_exists.mp (hfr j).1
      simp [readPassFile, hc]
    rw [assemble_count]
    simp only [passOrder, List.foldl_cons, List.foldl_nil, h1]
  · rw [validate_some_isValid, herr]
    simp
  · rw [validate_some_errors]
    exact herr

/-- The concrete well-formed decomposition used as witness for the amended
claim C1. -/
def c1okL : List Seg :=
  [Seg.txt (declTok ++ rootTok), Seg.ph 0, Seg.ph 1, Seg.ph 2, Seg.ph 3, Seg.ph 4,
   Seg.ph 5, Seg.ph 6, Seg.txt closeTok]

/-- Witness for the amended C1 on a concrete template and the seven
fragments all equal to the one-character text `a`. -/
theorem c1_amended_wellformed_build_witness :
    scanPH (assemble (render c1okL) (fun _ => some ['a'])).1 = [] ∧
    (assemble (render c1okL) (fun _ => some ['a'])).2.1 = 7 ∧
    (build ⟨some (render c1okL), fun _ => some ['a'], none⟩ 0 1).1.success = true ∧
    (validateAutounattendXml
      (some (assemble (render c1okL) (fun _ => some ['a'])).1)).isValid = true ∧
    (validateAutounattendXml
      (some (assemble (render c1okL) (fun _ => some ['a'])).1)).errors = [] := by
  apply c1_amended_wellformed_build
  · intro s hs
    simp only [c1okL, List.mem_cons, List.not_mem_nil, or_false] at hs
    rcases hs with rfl | rfl | rfl | rfl | rfl | rfl | rfl | rfl | rfl
    · show braceFreeB (declTok ++ rootTok) = true
      decide
    · trivial
    · trivial
    · trivial
    · trivial
    · trivial
    · trivial
    · trivial
    · show braceFreeB closeTok = true
      decide
  · intro n hn
    simp [c1okL] at hn
  · intro k
    fin_cases k <;> decide
  · intro k
    refine ⟨rfl, by decide, by decide, by decide⟩
  · exact ⟨declTok ++ rootTok, by simp [c1okL], by decide⟩
  · exact ⟨declTok ++ rootTok, by simp [c1okL], by decide⟩
  · exact ⟨closeTok, by simp [c1okL], by decide⟩
